import Mathlib

/-!
# Chart rendering of `gui/vir.js`

A shallow embedding of the three render operations of `gui/vir.js`
(`updateGanttChart`, `updateFrequencyChart`, `updateEnergyChart`) together with
the JavaScript primitives they call.

Numbers are binary64: a JavaScript number is the exact rational value of a
binary64 number, or one of the three special values `NaN`, `+Infinity`,
`-Infinity`.  Every arithmetic operation rounds its exact result to binary64
(`round64`: round to nearest, ties to even, gradual underflow, overflow to an
infinity).  The two zeros are one value; the code never divides by a negative
zero (`x - x` is `+0`, and no divisor is negative).  A field of an input record
is the exact value of the number it holds.
-/

namespace Vir

/-! ## JavaScript numbers -/

/-- A JavaScript number value: a finite number by its exact value, or a
special value. -/
inductive JSNum where
  | fin (q : ℚ)
  | posInf
  | negInf
  | nan
deriving DecidableEq

/-! ### Rounding to binary64 -/

/-- The loop of `bitLog2`, with `fuel` bounding the number of halvings. -/
def bitLog2Loop : ℕ → ℕ → ℕ
  | 0, _ => 0
  | fuel + 1, n => if 2 ≤ n then bitLog2Loop fuel (n / 2) + 1 else 0

/-- The position of the leading bit of a positive natural number: the `k` with
`2^k ≤ n < 2^(k+1)`. -/
def bitLog2 (n : ℕ) : ℕ := bitLog2Loop n n

/-- The exponent of a positive rational: the integer `e` with
`2^e ≤ q < 2^(e+1)`. -/
def floorLog2 (q : ℚ) : ℤ :=
  let e : ℤ := (bitLog2 q.num.toNat : ℤ) - (bitLog2 q.den : ℤ)
  if (2 : ℚ) ^ e ≤ q then e else e - 1

/-- The integer nearest to a rational, a tie going to the even one. -/
def roundHalfEven (x : ℚ) : ℤ :=
  let n := ⌊x⌋
  if x - n < 1 / 2 then n
  else if 1 / 2 < x - n then n + 1
  else if n % 2 = 0 then n else n + 1

/-- The magnitude of a positive rational rounded to binary64 precision, before
the overflow check: the nearest multiple of the unit in the last place, which
is `2^(e - 52)` for exponent `e` and `2^(-1074)` below the normal range. -/
def roundMagnitude (a : ℚ) : ℚ :=
  let ulp : ℚ := (2 : ℚ) ^ (max (floorLog2 a) (-1022) - 52)
  (roundHalfEven (a / ulp) : ℚ) * ulp

/-- The binary64 number a real result is rounded to: round to nearest, ties to
even, `±Infinity` on overflow. -/
def round64 (q : ℚ) : JSNum :=
  if q = 0 then JSNum.fin 0
  else if (2 : ℚ) ^ (1024 : ℕ) ≤ roundMagnitude |q| then
    (if q < 0 then JSNum.negInf else JSNum.posInf)
  else JSNum.fin (if q < 0 then -roundMagnitude |q| else roundMagnitude |q|)

/-! ### Arithmetic -/

namespace JSNum

/-- The numeric `+` of two numbers. -/
def add : JSNum → JSNum → JSNum
  | fin a, fin b => round64 (a + b)
  | nan, _ => nan
  | _, nan => nan
  | posInf, negInf => nan
  | negInf, posInf => nan
  | posInf, _ => posInf
  | negInf, _ => negInf
  | fin _, posInf => posInf
  | fin _, negInf => negInf

/-- The numeric `-` of two numbers. -/
def sub : JSNum → JSNum → JSNum
  | fin a, fin b => round64 (a - b)
  | nan, _ => nan
  | _, nan => nan
  | posInf, posInf => nan
  | negInf, negInf => nan
  | posInf, _ => posInf
  | negInf, _ => negInf
  | fin _, posInf => negInf
  | fin _, negInf => posInf

/-- The numeric `*` of two numbers. -/
def mul : JSNum → JSNum → JSNum
  | fin a, fin b => round64 (a * b)
  | nan, _ => nan
  | _, nan => nan
  | fin a, posInf => if a = 0 then nan else if 0 < a then posInf else negInf
  | fin a, negInf => if a = 0 then nan else if 0 < a then negInf else posInf
  | posInf, fin b => if b = 0 then nan else if 0 < b then posInf else negInf
  | negInf, fin b => if b = 0 then nan else if 0 < b then negInf else posInf
  | posInf, posInf => posInf
  | negInf, negInf => posInf
  | posInf, negInf => negInf
  | negInf, posInf => negInf

/-- The numeric `/` of two numbers.  A zero divisor is the positive zero, the
only zero the code divides by (`x - x` is `+0`), and an infinity divided by a
finite number takes the sign of a non-negative divisor. -/
def div : JSNum → JSNum → JSNum
  | fin a, fin b =>
      if b = 0 then (if 0 < a then posInf else if a < 0 then negInf else nan)
      else round64 (a / b)
  | nan, _ => nan
  | _, nan => nan
  | fin _, posInf => fin 0
  | fin _, negInf => fin 0
  | posInf, fin b => if 0 ≤ b then posInf else negInf
  | negInf, fin b => if 0 ≤ b then negInf else posInf
  | posInf, posInf => nan
  | posInf, negInf => nan
  | negInf, posInf => nan
  | negInf, negInf => nan

/-- The comparison `x < y`; false as soon as one side is `NaN`. -/
def lt : JSNum → JSNum → Bool
  | fin a, fin b => decide (a < b)
  | nan, _ => false
  | _, nan => false
  | negInf, negInf => false
  | negInf, _ => true
  | _, negInf => false
  | posInf, _ => false
  | fin _, posInf => true

/-- The comparison `x <= y`; false as soon as one side is `NaN`. -/
def le : JSNum → JSNum → Bool
  | fin a, fin b => decide (a ≤ b)
  | nan, _ => false
  | _, nan => false
  | negInf, _ => true
  | _, posInf => true
  | posInf, _ => false
  | fin _, negInf => false

/-- The function `Math.floor`. -/
def floor : JSNum → JSNum
  | fin a => fin (⌊a⌋ : ℤ)
  | x => x

end JSNum

/-- The loop of `Math.min`: `NaN` as soon as one argument is `NaN`, otherwise
the lowest value seen so far. -/
def mathMinFrom (lowest : JSNum) : List JSNum → JSNum
  | [] => lowest
  | x :: xs => if x = JSNum.nan then JSNum.nan
      else mathMinFrom (if x.lt lowest then x else lowest) xs

/-- The function `Math.min(...xs)`; `+Infinity` on no argument. -/
def mathMin (xs : List JSNum) : JSNum := mathMinFrom JSNum.posInf xs

/-- The loop of `Math.max`. -/
def mathMaxFrom (highest : JSNum) : List JSNum → JSNum
  | [] => highest
  | x :: xs => if x = JSNum.nan then JSNum.nan
      else mathMaxFrom (if highest.lt x then x else highest) xs

/-- The function `Math.max(...xs)`; `-Infinity` on no argument. -/
def mathMax (xs : List JSNum) : JSNum := mathMaxFrom JSNum.negInf xs

/-- The array index a number used as a property key stands for: the key is an
array index when the number is an integer from `0` to `2^32 - 2`. -/
def arrayIndex? : JSNum → Option ℕ
  | JSNum.fin q =>
      if q.den = 1 ∧ 0 ≤ q.num ∧ q.num < 2 ^ 32 - 1 then some q.num.toNat else none
  | _ => none

/-- The statement `arr[idx]++` on an array of numbers, as seen on the elements
the array already has: the element at `idx` is replaced by itself plus one.
A key that is no index of an existing element (`NaN`, a fraction, a negative
number, an index at or past the length) is written as a new property and
leaves the existing elements as they are. -/
def arrayIncr (arr : List JSNum) (idx : JSNum) : List JSNum :=
  match arrayIndex? idx with
  | some i =>
      match arr[i]? with
      | some v => arr.set i (v.add (JSNum.fin 1))
      | none => arr
  | none => arr

/-! ## The histogram of `updateFrequencyChart` -/

/-- A frequency sample; fields other than `frequency` are not read. -/
structure FrequencySample where
  frequency : ℚ
deriving DecidableEq

/-- The constant `bins` of `updateFrequencyChart`. -/
def bins : ℕ := 10

/-- The local values of the binning pass of `updateFrequencyChart`. -/
structure Histogram where
  min : JSNum
  max : JSNum
  binSize : JSNum
  distribution : List JSNum
deriving DecidableEq

/-- The expression `(f - min) / binSize` of the loop body. -/
def binQuotient (min binSize f : JSNum) : JSNum :=
  (f.sub min).div binSize

/-- The expression `Math.floor((f - min) / binSize)`: the bin index before the
clamp. -/
def rawBinIndex (min binSize f : JSNum) : JSNum :=
  (binQuotient min binSize f).floor

/-- The local `binIndex` of the loop body:
`Math.min(Math.floor((f - min) / binSize), bins - 1)`. -/
def binIndex (min binSize f : JSNum) : JSNum :=
  mathMin [rawBinIndex min binSize f, JSNum.fin ((bins : ℚ) - 1)]

/-- The binning pass of `updateFrequencyChart`, run on non-empty data. -/
def frequencyHistogram (frequencyData : List FrequencySample) : Histogram :=
  let frequencies := frequencyData.map (fun d => JSNum.fin d.frequency)
  let min := mathMin frequencies
  let max := mathMax frequencies
  let binSize := (max.sub min).div (JSNum.fin bins)
  let distribution :=
    frequencies.foldl (fun dist f => arrayIncr dist (binIndex min binSize f))
      (List.replicate bins (JSNum.fin 0))
  { min := min, max := max, binSize := binSize, distribution := distribution }

/-- The sum of an array of numbers. -/
def jsSum (xs : List JSNum) : JSNum := xs.foldl JSNum.add (JSNum.fin 0)


/-- The lower boundary `min + i * binSize` printed in the label of bin `i`. -/
def binLower (h : Histogram) (i : ℕ) : JSNum :=
  h.min.add ((JSNum.fin i).mul h.binSize)

/-- The upper boundary `min + (i + 1) * binSize` printed in the label of bin `i`. -/
def binUpper (h : Histogram) (i : ℕ) : JSNum :=
  h.min.add ((JSNum.fin ((i : ℚ) + 1)).mul h.binSize)

/-! ## Number formatting -/

/-- The number of trailing zeros of the decimal form of `n`, with `fuel`
bounding the loop. -/
def trailingZeros : ℕ → ℕ → ℕ
  | 0, _ => 0
  | fuel + 1, n => if n ≠ 0 ∧ n % 10 = 0 then trailingZeros fuel (n / 10) + 1 else 0

/-- The function `Number::toString` on a non-negative rational.  Integers up to
`2^53` print all their digits, and a single digit times a power of ten from
`10^21` on prints in exponent form (one digit is the shortest form there is).
Any other value prints the shortest decimal that reads back as the same
binary64 number, which exact arithmetic does not determine: `shortest` stands
for it. -/
def positiveToString (shortest : ℚ → String) (q : ℚ) : String :=
  if q.den = 1 then
    let n := q.num.toNat
    if n ≤ 2 ^ 53 then toString n
    else
      let e := trailingZeros n n
      if n / 10 ^ e < 10 ∧ 21 ≤ e then toString (n / 10 ^ e) ++ "e+" ++ toString e
      else shortest q
  else shortest q

/-- The function `Number::toString` in radix ten. -/
def numberToString (shortest : ℚ → String) : JSNum → String
  | JSNum.nan => "NaN"
  | JSNum.posInf => "Infinity"
  | JSNum.negInf => "-Infinity"
  | JSNum.fin q => (if q < 0 then "-" else "") ++ positiveToString shortest |q|

/-- Steps of `Number.prototype.toFixed` after the integer `n` closest to
`x * 10^f` is chosen: the digits of `n`, padded with zeros on the left to
`f + 1` characters, with a point before the last `f` of them. -/
def toFixedDigits (n f : ℕ) : List Char :=
  let m := if n = 0 then ['0'] else Nat.toDigits 10 n
  if f ≠ 0 then
    let k := m.length
    let m := if k ≤ f then List.replicate (f + 1 - k) '0' ++ m else m
    let k := m.length
    m.take (k - f) ++ '.' :: m.drop (k - f)
  else m

/-- The method `x.toFixed(f)` of a number.  A value that is not finite, or of
magnitude `10^21` or more, is printed by `Number::toString` instead. -/
def toFixed (shortest : ℚ → String) (x : JSNum) (f : ℕ) : String :=
  match x with
  | JSNum.fin q =>
      let s := if q < 0 then "-" else ""
      let a := |q|
      if (10 : ℚ) ^ 21 ≤ a then s ++ positiveToString shortest a
      else s ++ String.mk (toFixedDigits ⌊a * 10 ^ f + 1 / 2⌋.toNat f)
  | x => numberToString shortest x

/-! ## JavaScript values -/

/-- A JavaScript value held by a bar datum: a number or a string. -/
inductive JSVal where
  | num (x : JSNum)
  | str (s : String)
deriving DecidableEq

/-- The operator `a + b`: numeric addition of two numbers, concatenation as
soon as one side is a string. -/
def JSVal.plus (shortest : ℚ → String) : JSVal → JSVal → JSVal
  | JSVal.num a, JSVal.num b => JSVal.num (a.add b)
  | JSVal.num a, JSVal.str b => JSVal.str (numberToString shortest a ++ b)
  | JSVal.str a, JSVal.num b => JSVal.str (a ++ numberToString shortest b)
  | JSVal.str a, JSVal.str b => JSVal.str (a ++ b)

/-- The call `v.toFixed(f)` on a value; `none` is the `TypeError` thrown when the
value is a string, which has no such method. -/
def JSVal.toFixed (shortest : ℚ → String) : JSVal → ℕ → Option String
  | JSVal.num x, f => some (Vir.toFixed shortest x f)
  | JSVal.str _, _ => none

/-! ## The Gantt chart -/

/-- A time-slice record of the Gantt input. -/
structure TimeSliceRecord where
  pid : ℤ
  start : ℚ
  duration : ℚ
  frequency : ℚ
deriving DecidableEq

/-- The object built for one record in `datasets[0].data`. -/
structure BarDatum where
  x : JSVal
  y : JSVal
  duration : JSVal
deriving DecidableEq

/-- The label of a record in `data.labels`. -/
def ganttLabel (shortest : ℚ → String) (d : TimeSliceRecord) : String :=
  "P" ++ numberToString shortest (JSNum.fin d.pid)

/-- The datum of a record in `datasets[0].data`. -/
def ganttDatum (d : TimeSliceRecord) : BarDatum :=
  { x := JSVal.num (JSNum.fin d.start),
    y := JSVal.num (JSNum.fin d.frequency),
    duration := JSVal.num (JSNum.fin d.duration) }

/-- The hue `(i * 360) / ganttData.length` of bar `i`. -/
def ganttHue (i length : ℕ) : JSNum :=
  ((JSNum.fin i).mul (JSNum.fin 360)).div (JSNum.fin length)

/-- The colour of bar `i` in `datasets[0].backgroundColor`. -/
def ganttColor (shortest : ℚ → String) (i length : ℕ) : String :=
  "hsl(" ++ numberToString shortest (ganttHue i length) ++ ", 70%, 60%)"

/-- The tooltip `label` callback on the raw datum of the hovered bar; `none`
when a `toFixed` call throws. -/
def tooltipLabel (shortest : ℚ → String) (data : BarDatum) : Option (List String) :=
  match data.x.toFixed shortest 2,
        (data.x.plus shortest data.duration).toFixed shortest 2,
        data.y.toFixed shortest 2 with
  | some t0, some t1, some fr =>
      some ["Time: " ++ t0 ++ " - " ++ t1 ++ " ms", "Frequency: " ++ fr ++ " GHz"]
  | _, _, _ => none


/-! ## The energy chart -/

/-- An energy sample. -/
structure EnergySample where
  time : ℚ
  energy : ℚ
deriving DecidableEq

/-! ## The page: canvases, chart objects and the three global handles -/

/-- The canvas elements the render operations draw on, by element id. -/
inductive CanvasId where
  | ganttChart
  | frequencyDistChart
  | energyChart
deriving DecidableEq

/-- What a render operation passes to `new Chart`: the parts of the
configuration that depend on the data. -/
inductive ChartConfig where
  | gantt (labels : List String) (data : List BarDatum) (backgroundColor : List String)
  | frequency (labels : List String) (data : List JSNum)
  | energy (labels : List String) (data : List JSNum)
deriving DecidableEq

/-- A chart object made by `new Chart`. -/
structure Chart where
  canvas : CanvasId
  config : ChartConfig
  destroyed : Bool
deriving DecidableEq

/-- The state the render operations act on: every chart object constructed so
far, in order of construction, and the three globals `window.ganttChart`,
`window.frequencyChart` and `window.energyChart`.  A global is `some i` when it
holds chart object number `i`, and `none` when what it holds is no instance of
`Chart`. -/
structure Window where
  charts : List Chart
  ganttChart : Option ℕ
  frequencyChart : Option ℕ
  energyChart : Option ℕ
deriving DecidableEq

/-- The page before any render operation has run. -/
def Window.initial : Window :=
  { charts := [], ganttChart := none, frequencyChart := none, energyChart := none }

/-- The method `destroy()` of chart object number `i`. -/
def Window.destroy (w : Window) (i : ℕ) : Window :=
  { w with charts := w.charts.modify (fun c => { c with destroyed := true }) i }

/-- The guarded release at the head of each render operation:
`if (handle instanceof Chart) handle.destroy()`. -/
def Window.destroyIfChart (w : Window) (handle : Option ℕ) : Window :=
  match handle with
  | some i => w.destroy i
  | none => w

/-- The expression `new Chart(ctx, config)`: a fresh chart object on the canvas,
and its number. -/
def Window.newChart (w : Window) (canvas : CanvasId) (config : ChartConfig) : Window × ℕ :=
  ({ w with charts := w.charts ++ [{ canvas := canvas, config := config, destroyed := false }] },
    w.charts.length)

/-- The configuration `updateGanttChart` builds from non-empty data. -/
def ganttConfig (shortest : ℚ → String) (ganttData : List TimeSliceRecord) : ChartConfig :=
  ChartConfig.gantt
    (ganttData.map (ganttLabel shortest))
    (ganttData.map ganttDatum)
    (ganttData.mapIdx (fun i _ => ganttColor shortest i ganttData.length))

/-- The function `updateGanttChart`. -/
def updateGanttChart (shortest : ℚ → String) (ganttData : List TimeSliceRecord)
    (w : Window) : Window :=
  let w := w.destroyIfChart w.ganttChart
  if ganttData.length = 0 then w
  else
    let (w, chart) := w.newChart CanvasId.ganttChart (ganttConfig shortest ganttData)
    { w with ganttChart := some chart }

/-- The label of bin `i`: its two boundaries with two decimals. -/
def binLabel (shortest : ℚ → String) (h : Histogram) (i : ℕ) : String :=
  toFixed shortest (binLower h i) 2 ++ "-" ++ toFixed shortest (binUpper h i) 2

/-- The configuration `updateFrequencyChart` builds from non-empty data. -/
def frequencyConfig (shortest : ℚ → String) (frequencyData : List FrequencySample) :
    ChartConfig :=
  let h := frequencyHistogram frequencyData
  ChartConfig.frequency
    (h.distribution.mapIdx (fun i _ => binLabel shortest h i))
    h.distribution

/-- The function `updateFrequencyChart`. -/
def updateFrequencyChart (shortest : ℚ → String) (frequencyData : List FrequencySample)
    (w : Window) : Window :=
  let w := w.destroyIfChart w.frequencyChart
  if frequencyData.length = 0 then w
  else
    let (w, chart) :=
      w.newChart CanvasId.frequencyDistChart (frequencyConfig shortest frequencyData)
    { w with frequencyChart := some chart }

/-- The configuration `updateEnergyChart` builds from non-empty data. -/
def energyConfig (shortest : ℚ → String) (energyData : List EnergySample) : ChartConfig :=
  ChartConfig.energy
    (energyData.map (fun d => toFixed shortest (JSNum.fin d.time) 1))
    (energyData.map (fun d => JSNum.fin d.energy))

/-- The function `updateEnergyChart`. -/
def updateEnergyChart (shortest : ℚ → String) (energyData : List EnergySample)
    (w : Window) : Window :=
  let w := w.destroyIfChart w.energyChart
  if energyData.length = 0 then w
  else
    let (w, chart) := w.newChart CanvasId.energyChart (energyConfig shortest energyData)
    { w with energyChart := some chart }

/-- One call of a render operation with its argument. -/
inductive Call where
  | gantt (ganttData : List TimeSliceRecord)
  | frequency (frequencyData : List FrequencySample)
  | energy (energyData : List EnergySample)

/-- The effect of one call on the page. -/
def Call.apply (shortest : ℚ → String) (w : Window) : Call → Window
  | Call.gantt d => updateGanttChart shortest d w
  | Call.frequency d => updateFrequencyChart shortest d w
  | Call.energy d => updateEnergyChart shortest d w

/-- The page after a sequence of calls, first call first, from the initial page. -/
def runCalls (shortest : ℚ → String) (calls : List Call) : Window :=
  calls.foldl (Call.apply shortest) Window.initial

/-- The global handle of the panel drawn on a canvas. -/
def Window.handle (w : Window) : CanvasId → Option ℕ
  | CanvasId.ganttChart => w.ganttChart
  | CanvasId.frequencyDistChart => w.frequencyChart
  | CanvasId.energyChart => w.energyChart

/-- Chart object number `i` exists, is mounted on `canvas` and is not destroyed. -/
def Window.isLiveOn (w : Window) (canvas : CanvasId) (i : ℕ) : Bool :=
  match w.charts[i]? with
  | some c => decide (c.canvas = canvas) && !c.destroyed
  | none => false

/-- The numbers of the live chart objects mounted on `canvas`. -/
def Window.liveOn (w : Window) (canvas : CanvasId) : List ℕ :=
  (List.range w.charts.length).filter (w.isLiveOn canvas)

/-- The number of the chart object constructed last on `canvas`, if any. -/
def Window.lastCreatedOn (w : Window) (canvas : CanvasId) : Option ℕ :=
  ((List.range w.charts.length).filter
    (fun i => match w.charts[i]? with
      | some c => decide (c.canvas = canvas)
      | none => false)).getLast?


/-! ## Definitions used to state the properties -/

/-- The frequencies of the samples, as rationals. -/
def frequenciesOf (data : List FrequencySample) : List ℚ :=
  data.map (fun d => d.frequency)

/-- Membership of a sample in bin `i` as the specification words it: the sample
lies in `[min + i*binSize, min + (i+1)*binSize)`, and bin `9` also takes the
samples equal to `max`. -/
def inLabelledBin (min max binSize : ℚ) (i : ℕ) (f : ℚ) : Bool :=
  decide (min + i * binSize ≤ f ∧ (f < min + (i + 1) * binSize ∨ (i = 9 ∧ f = max)))

/-- Membership of a sample in bin `i` by its binary64 quotient
`q = (f - min) / binSize`: `i <= q < i + 1`, bin `9` taking every `q >= 9`. -/
def inQuotientBin (q : JSNum) (i : ℕ) : Bool :=
  (JSNum.fin i).le q && (q.lt (JSNum.fin ((i : ℚ) + 1)) || decide (i = 9))

/-- The rational is the exact value of a binary64 number. -/
def isBinary64 (q : ℚ) : Bool := decide (round64 q = JSNum.fin q)

/-- An array of `n` counts, element `i` holding the natural number `c i`. -/
def natArr (n : ℕ) (c : ℕ → ℕ) : List JSNum :=
  (List.range n).map (fun i => JSNum.fin (c i : ℚ))

/-- A rational rendered with exactly two decimal places, as the specification
words it: the value rounded to the nearest hundredth (a tie goes away from
zero), written as sign, integer part, a point and two decimal digits. -/
def twoDecimals (q : ℚ) : String :=
  let n := ⌊|q| * 100 + 1 / 2⌋.toNat
  (if q < 0 then "-" else "") ++
    (toString (n / 100) ++ "." ++
      String.mk [Nat.digitChar (n / 10 % 10), Nat.digitChar (n % 10)])

/-- Chart object number `i` exists and is mounted on `canvas`. -/
def Window.isOn (w : Window) (canvas : CanvasId) (i : ℕ) : Bool :=
  match w.charts[i]? with
  | some c => decide (c.canvas = canvas)
  | none => false

/-- Writing `h` into the global handle of the panel drawn on canvas `c`. -/
def Window.setHandle (w : Window) (c : CanvasId) (h : Option ℕ) : Window :=
  match c with
  | CanvasId.ganttChart => { w with ganttChart := h }
  | CanvasId.frequencyDistChart => { w with frequencyChart := h }
  | CanvasId.energyChart => { w with energyChart := h }

/-- The common shape of the three render operations on the panel of canvas
`c`: release the chart in the handle, then, unless the data is empty (`none`),
make a chart from the configuration and store it in the handle. -/
def Window.render (w : Window) (c : CanvasId) (config : Option ChartConfig) : Window :=
  match config with
  | none => w.destroyIfChart (w.handle c)
  | some cfg =>
      ((w.destroyIfChart (w.handle c)).newChart c cfg).1.setHandle c (some w.charts.length)

/-- The invariant of the page: a live chart on a canvas is the one in the
handle of that canvas, and each handle holds the chart made last on its
canvas. -/
def Window.Inv (w : Window) : Prop :=
  (∀ c i, w.isLiveOn c i = true → w.handle c = some i) ∧
  (∀ c, w.handle c = w.lastCreatedOn c)

/-- What an empty call leaves of the panel of canvas `c`: no chart object was
made, no live chart is on the canvas, and the chart the handle held before is
destroyed. -/
def Window.ClearedFrom (before after : Window) (c : CanvasId) : Prop :=
  after.charts.length = before.charts.length ∧
  after.liveOn c = [] ∧
  ∀ i, before.handle c = some i → ∃ ch, after.charts[i]? = some ch ∧ ch.destroyed = true

/-! ## Helper lemmas -/

/-! ### Rounding -/

theorem bitLog2Loop_spec (fuel : ℕ) : ∀ n : ℕ, n ≤ fuel → n ≠ 0 →
    2 ^ bitLog2Loop fuel n ≤ n ∧ n < 2 ^ (bitLog2Loop fuel n + 1) := by
  induction fuel with
  | zero => intro n h1 h2; omega
  | succ f ih =>
    intro n h1 h2
    simp only [bitLog2Loop]
    by_cases h : 2 ≤ n
    · simp only [h, if_true]
      obtain ⟨ha, hb⟩ := ih (n / 2) (by omega) (by omega)
      constructor
      · rw [pow_succ]; omega
      · rw [pow_succ]; omega
    · simp only [h, if_false]
      constructor <;> simp <;> omega

theorem bitLog2_spec (n : ℕ) (hn : n ≠ 0) :
    2 ^ bitLog2 n ≤ n ∧ n < 2 ^ (bitLog2 n + 1) :=
  bitLog2Loop_spec n n (le_refl n) hn

theorem floorLog2_aux (q n d : ℚ) (a b : ℕ) (hd : 0 < d) (hq : q = n / d)
    (a1 : (2 : ℚ) ^ a ≤ n) (a2 : n < (2 : ℚ) ^ (a + 1))
    (b1 : (2 : ℚ) ^ b ≤ d) (b2 : d < (2 : ℚ) ^ (b + 1)) :
    q < (2 : ℚ) ^ ((a : ℤ) - (b : ℤ) + 1) ∧ (2 : ℚ) ^ ((a : ℤ) - (b : ℤ) - 1) ≤ q := by
  have h2pos : ∀ k : ℕ, (0 : ℚ) < (2 : ℚ) ^ k := fun k => by positivity
  have hn : 0 ≤ n := le_trans (h2pos a).le a1
  have hsub : ∀ x y : ℕ, (2 : ℚ) ^ ((x : ℤ) - (y : ℤ)) = (2 : ℚ) ^ x / (2 : ℚ) ^ y := by
    intro x y
    rw [zpow_sub₀ (by norm_num : (2 : ℚ) ≠ 0), zpow_natCast, zpow_natCast]
  constructor
  · have : ((a : ℤ) - (b : ℤ) + 1) = (((a + 1 : ℕ) : ℤ) - (b : ℤ)) := by push_cast; ring
    rw [this, hsub, hq, div_lt_div_iff₀ hd (h2pos _)]
    calc n * 2 ^ b ≤ n * d := mul_le_mul_of_nonneg_left b1 hn
      _ < 2 ^ (a + 1) * d := mul_lt_mul_of_pos_right a2 hd
  · have : ((a : ℤ) - (b : ℤ) - 1) = ((a : ℤ) - ((b + 1 : ℕ) : ℤ)) := by push_cast; ring
    rw [this, hsub, hq, div_le_div_iff₀ (h2pos _) hd]
    calc (2 : ℚ) ^ a * d ≤ n * d := mul_le_mul_of_nonneg_right a1 hd.le
      _ ≤ n * 2 ^ (b + 1) := mul_le_mul_of_nonneg_left b2.le hn

theorem floorLog2_spec (q : ℚ) (hq : 0 < q) :
    (2 : ℚ) ^ floorLog2 q ≤ q ∧ q < (2 : ℚ) ^ (floorLog2 q + 1) := by
  have hnum : 0 < q.num := Rat.num_pos.mpr hq
  have hden : q.den ≠ 0 := q.den_nz
  have hnn : q.num.toNat ≠ 0 := by omega
  obtain ⟨a1, a2⟩ := bitLog2_spec q.num.toNat hnn
  obtain ⟨b1, b2⟩ := bitLog2_spec q.den hden
  have hqeq : q = (q.num.toNat : ℚ) / (q.den : ℚ) := by
    have h1 : ((q.num.toNat : ℕ) : ℤ) = q.num := Int.toNat_of_nonneg hnum.le
    have h2 : ((q.num.toNat : ℕ) : ℚ) = (q.num : ℚ) := by
      calc ((q.num.toNat : ℕ) : ℚ) = (((q.num.toNat : ℕ) : ℤ) : ℚ) := (Int.cast_natCast _).symm
        _ = (q.num : ℚ) := by rw [h1]
    rw [h2, Rat.num_div_den]
  have hdpos : (0 : ℚ) < (q.den : ℚ) := by exact_mod_cast Nat.pos_of_ne_zero hden
  have a1' : (2 : ℚ) ^ (bitLog2 q.num.toNat) ≤ (q.num.toNat : ℚ) := by exact_mod_cast a1
  have a2' : (q.num.toNat : ℚ) < (2 : ℚ) ^ (bitLog2 q.num.toNat + 1) := by exact_mod_cast a2
  have b1' : (2 : ℚ) ^ (bitLog2 q.den) ≤ (q.den : ℚ) := by exact_mod_cast b1
  have b2' : (q.den : ℚ) < (2 : ℚ) ^ (bitLog2 q.den + 1) := by exact_mod_cast b2
  obtain ⟨k1, k2⟩ := floorLog2_aux q _ _ _ _ hdpos hqeq a1' a2' b1' b2'
  unfold floorLog2
  simp only
  by_cases ht : (2 : ℚ) ^ ((bitLog2 q.num.toNat : ℤ) - (bitLog2 q.den : ℤ)) ≤ q
  · rw [if_pos ht]
    exact ⟨ht, k1⟩
  · rw [if_neg ht]
    refine ⟨k2, ?_⟩
    have : ((bitLog2 q.num.toNat : ℤ) - (bitLog2 q.den : ℤ) - 1 + 1)
        = ((bitLog2 q.num.toNat : ℤ) - (bitLog2 q.den : ℤ)) := by ring
    rw [this]
    exact not_le.mp ht

theorem roundHalfEven_spec (x : ℚ) :
    |(roundHalfEven x : ℚ) - x| ≤ 1 / 2 ∧ (0 ≤ x → 0 ≤ roundHalfEven x) := by
  have h1 : (⌊x⌋ : ℚ) ≤ x := Int.floor_le x
  have h2 : x < (⌊x⌋ : ℚ) + 1 := Int.lt_floor_add_one x
  unfold roundHalfEven
  simp only
  have hfl : 0 ≤ x → 0 ≤ ⌊x⌋ := fun h => Int.floor_nonneg.mpr h
  split_ifs with c1 c2 c3
  · refine ⟨?_, hfl⟩
    rw [abs_le]; constructor <;> linarith
  · refine ⟨?_, fun h => by have := hfl h; omega⟩
    rw [abs_le]; push_cast; constructor <;> linarith
  · refine ⟨?_, hfl⟩
    rw [abs_le]; constructor <;> linarith
  · refine ⟨?_, fun h => by have := hfl h; omega⟩
    rw [abs_le]; push_cast; constructor <;> linarith


/-- The rounding error of `roundMagnitude`: at most half a unit in the last
place, which is at most `a / 2^53` in the normal range and `2^(-1075)` below
it. -/
theorem roundMagnitude_spec (a : ℚ) (ha : 0 < a) :
    0 ≤ roundMagnitude a ∧
    |roundMagnitude a - a| ≤ max (a / 2 ^ (53 : ℕ)) (1 / 2 ^ (1075 : ℕ)) := by
  obtain ⟨hfl, _⟩ := floorLog2_spec a ha
  have hulp : (0 : ℚ) < (2 : ℚ) ^ (max (floorLog2 a) (-1022) - 52) := by positivity
  obtain ⟨herr, hnn⟩ := roundHalfEven_spec (a / (2 : ℚ) ^ (max (floorLog2 a) (-1022) - 52))
  have hpos : 0 ≤ a / (2 : ℚ) ^ (max (floorLog2 a) (-1022) - 52) :=
    div_nonneg ha.le hulp.le
  unfold roundMagnitude
  simp only
  set ulp : ℚ := (2 : ℚ) ^ (max (floorLog2 a) (-1022) - 52) with hulpdef
  set n : ℤ := roundHalfEven (a / ulp) with hn
  have hn0 : (0 : ℚ) ≤ (n : ℚ) := by exact_mod_cast hnn hpos
  refine ⟨mul_nonneg hn0 hulp.le, ?_⟩
  have hdiff : (n : ℚ) * ulp - a = ((n : ℚ) - a / ulp) * ulp := by
    field_simp
  have h1 : |(n : ℚ) * ulp - a| ≤ ulp / 2 := by
    rw [hdiff, abs_mul, abs_of_pos hulp]
    calc |(n : ℚ) - a / ulp| * ulp ≤ (1 / 2) * ulp :=
          mul_le_mul_of_nonneg_right herr hulp.le
      _ = ulp / 2 := by ring
  refine le_trans h1 ?_
  by_cases hc : -1022 ≤ floorLog2 a
  · apply le_max_of_le_left
    have hm : max (floorLog2 a) (-1022) = floorLog2 a := max_eq_left hc
    have hu : ulp = (2 : ℚ) ^ floorLog2 a / 2 ^ (52 : ℕ) := by
      rw [hulpdef, hm, zpow_sub₀ (by norm_num : (2 : ℚ) ≠ 0)]
      norm_num
    rw [hu]
    have h53 : (2 : ℚ) ^ (52 : ℕ) * 2 = 2 ^ (53 : ℕ) := by rw [← pow_succ]
    rw [div_div, h53]
    exact div_le_div_of_nonneg_right hfl (by positivity)
  · apply le_max_of_le_right
    have hm : max (floorLog2 a) (-1022) = -1022 := max_eq_right (by omega)
    have hu : ulp = 1 / 2 ^ (1074 : ℕ) := by
      rw [hulpdef, hm]
      have : ((-1022 : ℤ) - 52) = -((1074 : ℕ) : ℤ) := by norm_num
      rw [this, zpow_neg, zpow_natCast]
      simp
    have h1075 : (2 : ℚ) ^ (1074 : ℕ) * 2 = 2 ^ (1075 : ℕ) := by rw [← pow_succ]
    rw [hu, div_div, h1075]

/-- What `round64` does to a positive rational: the rounded magnitude, or
`+Infinity` when that reaches `2^1024`. -/
theorem round64_of_pos (q : ℚ) (hq : 0 < q) :
    round64 q = if (2 : ℚ) ^ (1024 : ℕ) ≤ roundMagnitude q then JSNum.posInf
      else JSNum.fin (roundMagnitude q) := by
  have h0 : q ≠ 0 := hq.ne.symm
  have hneg : ¬ q < 0 := not_lt.mpr hq.le
  unfold round64
  simp only [h0, hneg, if_false, abs_of_pos hq]

theorem round64_zero : round64 0 = JSNum.fin 0 := by
  simp [round64]

/-- Rounding a non-negative rational gives a non-negative number or
`+Infinity`, within the rounding error. -/
theorem round64_of_nonneg (q : ℚ) (hq : 0 ≤ q) :
    round64 q = JSNum.posInf ∨
    ∃ r : ℚ, round64 q = JSNum.fin r ∧ 0 ≤ r ∧
      |r - q| ≤ max (q / 2 ^ (53 : ℕ)) (1 / 2 ^ (1075 : ℕ)) ∧ (q = 0 → r = 0) := by
  rcases hq.eq_or_lt with h | h
  · right
    refine ⟨0, ?_, le_refl _, ?_, fun _ => rfl⟩
    · rw [← h]; exact round64_zero
    · rw [← h]; simp
  · rw [round64_of_pos q h]
    obtain ⟨h1, h2⟩ := roundMagnitude_spec q h
    by_cases hc : (2 : ℚ) ^ (1024 : ℕ) ≤ roundMagnitude q
    · left; rw [if_pos hc]
    · right
      rw [if_neg hc]
      exact ⟨_, rfl, h1, h2, fun h0 => absurd h0 h.ne.symm⟩


theorem roundHalfEven_intCast (z : ℤ) : roundHalfEven (z : ℚ) = z := by
  unfold roundHalfEven
  simp

/-- A natural number below `2^53` is a binary64 number: rounding keeps it. -/
theorem roundMagnitude_natCast (n : ℕ) (h0 : 0 < n) (hn : n < 2 ^ 53) :
    roundMagnitude (n : ℚ) = (n : ℚ) := by
  have hpos : (0 : ℚ) < (n : ℚ) := by exact_mod_cast h0
  obtain ⟨h1, h2⟩ := floorLog2_spec (n : ℚ) hpos
  have hlo : 0 ≤ floorLog2 (n : ℚ) := by
    by_contra hc
    have hle : floorLog2 (n : ℚ) + 1 ≤ 0 := by omega
    have : (2 : ℚ) ^ (floorLog2 (n : ℚ) + 1) ≤ (2 : ℚ) ^ (0 : ℤ) :=
      zpow_le_zpow_right₀ (by norm_num) hle
    have h1n : (1 : ℚ) ≤ (n : ℚ) := by exact_mod_cast h0
    simp only [zpow_zero] at this
    linarith
  have hhi : floorLog2 (n : ℚ) ≤ 52 := by
    by_contra hc
    have hle : (53 : ℤ) ≤ floorLog2 (n : ℚ) := by omega
    have : (2 : ℚ) ^ (53 : ℤ) ≤ (2 : ℚ) ^ floorLog2 (n : ℚ) :=
      zpow_le_zpow_right₀ (by norm_num) hle
    have hn' : (n : ℚ) < (2 : ℚ) ^ (53 : ℕ) := by exact_mod_cast hn
    have e : (2 : ℚ) ^ (53 : ℤ) = (2 : ℚ) ^ (53 : ℕ) := by norm_num
    rw [e] at this
    linarith
  obtain ⟨k, hk⟩ := Int.eq_ofNat_of_zero_le hlo
  have hk52 : k ≤ 52 := by omega
  unfold roundMagnitude
  simp only
  rw [max_eq_left (by omega : (-1022 : ℤ) ≤ floorLog2 (n : ℚ)), hk]
  have hulp : (2 : ℚ) ^ ((k : ℤ) - 52) = 1 / (2 : ℚ) ^ (52 - k) := by
    have : ((k : ℤ) - 52) = -((52 - k : ℕ) : ℤ) := by omega
    rw [this, zpow_neg, zpow_natCast]
    simp
  rw [hulp]
  have hdiv : (n : ℚ) / (1 / (2 : ℚ) ^ (52 - k)) = (((n * 2 ^ (52 - k) : ℕ) : ℤ) : ℚ) := by
    push_cast
    field_simp
  rw [hdiv, roundHalfEven_intCast]
  push_cast
  field_simp

theorem round64_natCast (n : ℕ) (hn : n < 2 ^ 53) : round64 (n : ℚ) = JSNum.fin (n : ℚ) := by
  rcases Nat.eq_zero_or_pos n with h | h
  · subst h
    simpa using round64_zero
  · have hpos : (0 : ℚ) < (n : ℚ) := by exact_mod_cast h
    rw [round64_of_pos _ hpos, roundMagnitude_natCast n h hn]
    have : ¬ ((2 : ℚ) ^ (1024 : ℕ) ≤ (n : ℚ)) := by
      have h1 : (n : ℚ) < (2 : ℚ) ^ (53 : ℕ) := by exact_mod_cast hn
      have h2 : (2 : ℚ) ^ (53 : ℕ) ≤ (2 : ℚ) ^ (1024 : ℕ) :=
        pow_le_pow_right₀ (by norm_num) (by norm_num)
      linarith
    rw [if_neg this]

/-- Rounding a non-negative rational below `2^1023` gives a finite number. -/
theorem round64_fin_of_lt (q : ℚ) (hq : 0 ≤ q) (hlt : q < 2 ^ (1023 : ℕ)) :
    ∃ r : ℚ, round64 q = JSNum.fin r ∧ 0 ≤ r ∧
      |r - q| ≤ max (q / 2 ^ (53 : ℕ)) (1 / 2 ^ (1075 : ℕ)) := by
  rcases round64_of_nonneg q hq with h | ⟨r, h1, h2, h3, _⟩
  · exfalso
    rcases hq.eq_or_lt with h0 | h0
    · rw [← h0, round64_zero] at h
      exact JSNum.noConfusion h
    · rw [round64_of_pos q h0] at h
      obtain ⟨_, hb⟩ := roundMagnitude_spec q h0
      by_cases hc : (2 : ℚ) ^ (1024 : ℕ) ≤ roundMagnitude q
      · have hb' := (abs_le.mp hb).2
        have e1 : q / 2 ^ (53 : ℕ) ≤ q / 2 :=
          div_le_div_of_nonneg_left hq (by norm_num) (by norm_num)
        have e2 : (1 : ℚ) / 2 ^ (1075 : ℕ) ≤ 1 := by
          rw [div_le_one (by positivity)]
          exact one_le_pow₀ (by norm_num)
        have e3 : max (q / 2 ^ (53 : ℕ)) (1 / 2 ^ (1075 : ℕ)) ≤ q / 2 + 1 :=
          max_le (by linarith) (by linarith)
        have e4 : (2 : ℚ) ^ (1024 : ℕ) = 2 * 2 ^ (1023 : ℕ) := by rw [pow_succ]; ring
        have e5 : (2 : ℚ) ≤ 2 ^ (1023 : ℕ) := by
          have : (2 : ℚ) ^ (1 : ℕ) ≤ 2 ^ (1023 : ℕ) :=
            pow_le_pow_right₀ (by norm_num) (by norm_num)
          simpa using this
        linarith
      · rw [if_neg hc] at h
        exact JSNum.noConfusion h
  · exact ⟨r, h1, h2, h3⟩


/-! ### `Math.min` and `Math.max` -/

theorem fin_ne_nan (q : ℚ) : (JSNum.fin q = JSNum.nan) = False := by simp

theorem mathMinFrom_fin (l : List ℚ) (m : ℚ) :
    mathMinFrom (JSNum.fin m) (l.map JSNum.fin) = JSNum.fin (l.foldl min m) := by
  induction l generalizing m with
  | nil => rfl
  | cons a l ih =>
    simp only [List.map_cons, mathMinFrom, List.foldl_cons, fin_ne_nan, if_false, JSNum.lt]
    by_cases h : a < m
    · simp [h, ih, min_eq_right h.le]
    · simp [h, ih, min_eq_left (not_lt.mp h)]

theorem mathMaxFrom_fin (l : List ℚ) (m : ℚ) :
    mathMaxFrom (JSNum.fin m) (l.map JSNum.fin) = JSNum.fin (l.foldl max m) := by
  induction l generalizing m with
  | nil => rfl
  | cons a l ih =>
    simp only [List.map_cons, mathMaxFrom, List.foldl_cons, fin_ne_nan, if_false, JSNum.lt]
    by_cases h : m < a
    · simp [h, ih, max_eq_right h.le]
    · simp [h, ih, max_eq_left (not_lt.mp h)]

theorem mathMin_fin_cons (a : ℚ) (l : List ℚ) :
    mathMin ((a :: l).map JSNum.fin) = JSNum.fin (l.foldl min a) := by
  simp [mathMin, mathMinFrom, JSNum.lt, mathMinFrom_fin]

theorem mathMax_fin_cons (a : ℚ) (l : List ℚ) :
    mathMax ((a :: l).map JSNum.fin) = JSNum.fin (l.foldl max a) := by
  simp [mathMax, mathMaxFrom, JSNum.lt, mathMaxFrom_fin]

theorem foldl_min_le (l : List ℚ) (a : ℚ) :
    l.foldl min a ≤ a ∧ ∀ f ∈ l, l.foldl min a ≤ f := by
  induction l generalizing a with
  | nil => simp
  | cons b l ih =>
    obtain ⟨h1, h2⟩ := ih (min a b)
    refine ⟨h1.trans (min_le_left _ _), ?_⟩
    intro f hf
    rcases List.mem_cons.mp hf with rfl | hf
    · exact h1.trans (min_le_right _ _)
    · exact h2 f hf

theorem le_foldl_max (l : List ℚ) (a : ℚ) :
    a ≤ l.foldl max a ∧ ∀ f ∈ l, f ≤ l.foldl max a := by
  induction l generalizing a with
  | nil => simp
  | cons b l ih =>
    obtain ⟨h1, h2⟩ := ih (max a b)
    refine ⟨(le_max_left _ _).trans h1, ?_⟩
    intro f hf
    rcases List.mem_cons.mp hf with rfl | hf
    · exact (le_max_right _ _).trans h1
    · exact h2 f hf

theorem foldl_min_mem (l : List ℚ) (a : ℚ) : l.foldl min a ∈ a :: l := by
  induction l generalizing a with
  | nil => simp
  | cons b l ih =>
    have h := ih (min a b)
    rcases List.mem_cons.mp h with h | h
    · rw [List.foldl_cons, h]
      rcases min_choice a b with h' | h' <;> simp [h']
    · simp [h]

theorem foldl_max_mem (l : List ℚ) (a : ℚ) : l.foldl max a ∈ a :: l := by
  induction l generalizing a with
  | nil => simp
  | cons b l ih =>
    have h := ih (max a b)
    rcases List.mem_cons.mp h with h | h
    · rw [List.foldl_cons, h]
      rcases max_choice a b with h' | h' <;> simp [h']
    · simp [h]

/-- The least element of a non-empty list of rationals is what `Math.min`
returns on it. -/
theorem mathMin_eq_of_least (fs : List ℚ) (m : ℚ) (hm : m ∈ fs) (hle : ∀ f ∈ fs, m ≤ f) :
    mathMin (fs.map JSNum.fin) = JSNum.fin m := by
  cases fs with
  | nil => simp at hm
  | cons a l =>
    rw [mathMin_fin_cons]
    congr 1
    apply le_antisymm
    · have := foldl_min_le l a
      rcases List.mem_cons.mp hm with rfl | h
      · exact this.1
      · exact this.2 m h
    · exact hle _ (foldl_min_mem l a)

theorem mathMax_eq_of_greatest (fs : List ℚ) (M : ℚ) (hM : M ∈ fs) (hle : ∀ f ∈ fs, f ≤ M) :
    mathMax (fs.map JSNum.fin) = JSNum.fin M := by
  cases fs with
  | nil => simp at hM
  | cons a l =>
    rw [mathMax_fin_cons]
    congr 1
    apply le_antisymm
    · exact hle _ (foldl_max_mem l a)
    · have := le_foldl_max l a
      rcases List.mem_cons.mp hM with rfl | h
      · exact this.1
      · exact this.2 M h


/-! ### Arrays of counts -/

theorem natArr_length (n : ℕ) (c : ℕ → ℕ) : (natArr n c).length = n := by
  simp [natArr]

theorem natArr_getElem? (n : ℕ) (c : ℕ → ℕ) (i : ℕ) :
    (natArr n c)[i]? = if i < n then some (JSNum.fin (c i : ℚ)) else none := by
  unfold natArr
  by_cases h : i < n
  · simp [h, List.getElem?_range]
  · simp [h, not_lt.mp h]

theorem replicate_zero_eq_natArr (n : ℕ) :
    List.replicate n (JSNum.fin 0) = natArr n (fun _ => 0) := by
  apply List.ext_getElem?
  intro i
  rw [natArr_getElem?]
  by_cases h : i < n
  · simp [h, List.getElem?_replicate]
  · simp [h, List.getElem?_replicate]

/-- Adding one to a count below `2^53 - 1` is exact. -/
theorem add_one_natCast (k : ℕ) (hk : k + 1 < 2 ^ 53) :
    (JSNum.fin (k : ℚ)).add (JSNum.fin 1) = JSNum.fin ((k + 1 : ℕ) : ℚ) := by
  have := round64_natCast (k + 1) hk
  simp only [JSNum.add]
  rw [← this]
  push_cast
  rfl

theorem arrayIncr_natArr (n : ℕ) (c : ℕ → ℕ) (x : JSNum) (hb : ∀ i, c i + 1 < 2 ^ 53) :
    arrayIncr (natArr n c) x
      = natArr n (fun i => c i + if arrayIndex? x = some i then 1 else 0) := by
  unfold arrayIncr
  cases hx : arrayIndex? x with
  | none => simp
  | some k =>
    simp only [natArr_getElem?]
    by_cases hk : k < n
    · simp only [hk, if_true]
      apply List.ext_getElem?
      intro i
      rw [List.getElem?_set, natArr_getElem?, natArr_getElem?, natArr_length]
      by_cases hik : k = i
      · subst hik
        have h := add_one_natCast (c k) (hb k)
        push_cast at h
        simp [hk, h]
      · have : ¬ (some k = some i) := by simpa using hik
        simp [hik]
    · simp only [hk, if_false]
      apply List.ext_getElem?
      intro i
      rw [natArr_getElem?, natArr_getElem?]
      by_cases hi : i < n
      · have : k ≠ i := by omega
        simp [hi, this]
      · simp [hi]

theorem foldl_arrayIncr_natArr (idx : JSNum → JSNum) (l : List JSNum) (n : ℕ) (c : ℕ → ℕ)
    (hb : ∀ i, c i + l.length < 2 ^ 53) :
    l.foldl (fun dist f => arrayIncr dist (idx f)) (natArr n c)
      = natArr n (fun i => c i + l.countP (fun f => decide (arrayIndex? (idx f) = some i))) := by
  induction l generalizing c with
  | nil => simp
  | cons a l ih =>
    have hb1 : ∀ i, c i + 1 < 2 ^ 53 := by
      intro i
      have := hb i
      simp only [List.length_cons] at this
      omega
    rw [List.foldl_cons, arrayIncr_natArr n c _ hb1, ih]
    · congr 1
      funext i
      rw [List.countP_cons]
      by_cases h : arrayIndex? (idx a) = some i
      · simp [h]; omega
      · simp [h]
    · intro i
      have := hb i
      simp only [List.length_cons] at this
      by_cases h : arrayIndex? (idx a) = some i
      · simp only [h, if_true]; omega
      · simp only [h, if_false]; omega

theorem jsSum_natArr_aux (l : List ℕ) (c : ℕ → ℕ) (a : ℕ)
    (hb : a + (l.map c).sum < 2 ^ 53) :
    (l.map (fun i => JSNum.fin (c i : ℚ))).foldl JSNum.add (JSNum.fin (a : ℚ))
      = JSNum.fin ((a + (l.map c).sum : ℕ) : ℚ) := by
  induction l generalizing a with
  | nil => simp
  | cons b l ih =>
    simp only [List.map_cons, List.sum_cons] at hb
    simp only [List.map_cons, List.foldl_cons, List.sum_cons]
    have hstep : (JSNum.fin (a : ℚ)).add (JSNum.fin (c b : ℚ))
        = JSNum.fin ((a + c b : ℕ) : ℚ) := by
      have := round64_natCast (a + c b) (by omega)
      simp only [JSNum.add]
      rw [← this]
      push_cast
      rfl
    rw [hstep, ih (a + c b) (by omega)]
    congr 2
    omega

theorem jsSum_natArr (n : ℕ) (c : ℕ → ℕ) (hb : ((List.range n).map c).sum < 2 ^ 53) :
    jsSum (natArr n c) = JSNum.fin ((((List.range n).map c).sum : ℕ) : ℚ) := by
  have := jsSum_natArr_aux (List.range n) c 0 (by omega)
  simpa [jsSum, natArr] using this

theorem sum_indicator_range (n k : ℕ) :
    ((List.range n).map (fun i => if k = i then 1 else 0)).sum = if k < n then 1 else 0 := by
  induction n with
  | zero => simp
  | succ n ih =>
    rw [List.range_succ, List.map_append, List.sum_append, ih]
    by_cases h1 : k < n
    · have : k ≠ n := by omega
      have h2 : k < n + 1 := by omega
      simp [h1, h2, this]
    · by_cases h3 : k = n
      · subst h3
        simp
      · have h2 : ¬ k < n + 1 := by omega
        simp [h1, h2, h3]

/-- Counting a list by a key below `n`: the classes add up to the length. -/
theorem sum_countP_range (n : ℕ) (key : α → Option ℕ) (l : List α)
    (h : ∀ a ∈ l, ∃ k, k < n ∧ key a = some k) :
    ((List.range n).map (fun i => l.countP (fun a => decide (key a = some i)))).sum
      = l.length := by
  induction l with
  | nil => simp
  | cons a l ih =>
    obtain ⟨k, hk, hka⟩ := h a (List.mem_cons_self _ _)
    have ih' := ih (fun b hb => h b (List.mem_cons_of_mem _ hb))
    have hsplit : ∀ i, (a :: l).countP (fun a => decide (key a = some i))
        = l.countP (fun a => decide (key a = some i)) + (if k = i then 1 else 0) := by
      intro i
      rw [List.countP_cons, hka]
      simp
    simp only [hsplit]
    rw [List.sum_map_add, ih']
    simp only [List.length_cons, Nat.add_left_cancel_iff]
    rw [sum_indicator_range, if_pos hk]

/-! ### The binning pass -/

theorem map_fin_frequencies (data : List FrequencySample) :
    data.map (fun d => JSNum.fin d.frequency) = (frequenciesOf data).map JSNum.fin := by
  simp [frequenciesOf, List.map_map, Function.comp_def]

/-- The binning pass in closed form, once `Math.min` and `Math.max` are known
to be finite: bin `i` holds the number of samples whose index is `i`. -/
theorem frequencyHistogram_closed (data : List FrequencySample) (m M : ℚ)
    (hmin : mathMin ((frequenciesOf data).map JSNum.fin) = JSNum.fin m)
    (hmax : mathMax ((frequenciesOf data).map JSNum.fin) = JSNum.fin M)
    (hlen : data.length < 2 ^ 32) :
    frequencyHistogram data =
      { min := JSNum.fin m, max := JSNum.fin M,
        binSize := ((JSNum.fin M).sub (JSNum.fin m)).div (JSNum.fin 10),
        distribution := natArr 10 (fun i => data.countP (fun d =>
          decide (arrayIndex? (binIndex (JSNum.fin m)
            (((JSNum.fin M).sub (JSNum.fin m)).div (JSNum.fin 10))
            (JSNum.fin d.frequency)) = some i))) } := by
  unfold frequencyHistogram
  simp only [map_fin_frequencies, hmin, hmax]
  have hb : bins = 10 := rfl
  have hb' : (JSNum.fin ((bins : ℕ) : ℚ)) = JSNum.fin 10 := by rw [hb]; norm_num
  rw [hb', hb, replicate_zero_eq_natArr, foldl_arrayIncr_natArr, ← map_fin_frequencies]
  · simp only [List.countP_map, Function.comp_def, Nat.zero_add]
  · intro i
    simp only [List.length_map, frequenciesOf, Nat.zero_add]
    have : (2 : ℕ) ^ 32 < 2 ^ 53 := by norm_num
    omega

theorem histogram_extrema (data : List FrequencySample) (hne : data ≠ []) :
    ∃ m M : ℚ, m ∈ frequenciesOf data ∧ M ∈ frequenciesOf data ∧
      (∀ d ∈ data, m ≤ d.frequency ∧ d.frequency ≤ M) ∧
      mathMin ((frequenciesOf data).map JSNum.fin) = JSNum.fin m ∧
      mathMax ((frequenciesOf data).map JSNum.fin) = JSNum.fin M := by
  cases data with
  | nil => exact absurd rfl hne
  | cons a l =>
    refine ⟨(frequenciesOf l).foldl min a.frequency, (frequenciesOf l).foldl max a.frequency,
      ?_, ?_, ?_, ?_, ?_⟩
    · exact foldl_min_mem _ _
    · exact foldl_max_mem _ _
    · intro d hd
      have h1 := foldl_min_le (frequenciesOf l) a.frequency
      have h2 := le_foldl_max (frequenciesOf l) a.frequency
      rcases List.mem_cons.mp hd with rfl | hd
      · exact ⟨h1.1, h2.1⟩
      · have : d.frequency ∈ frequenciesOf l := List.mem_map_of_mem _ hd
        exact ⟨h1.2 _ this, h2.2 _ this⟩
    · exact mathMin_fin_cons _ _
    · exact mathMax_fin_cons _ _

/-- The closed form on non-empty data of fewer than `2^32` samples, with the
two extrema. -/
theorem frequencyHistogram_nonempty (data : List FrequencySample) (hne : data ≠ [])
    (hlen : data.length < 2 ^ 32) :
    ∃ m M : ℚ, m ∈ frequenciesOf data ∧ M ∈ frequenciesOf data ∧
      (∀ d ∈ data, m ≤ d.frequency ∧ d.frequency ≤ M) ∧
      frequencyHistogram data =
        { min := JSNum.fin m, max := JSNum.fin M,
          binSize := ((JSNum.fin M).sub (JSNum.fin m)).div (JSNum.fin 10),
          distribution := natArr 10 (fun i => data.countP (fun d =>
            decide (arrayIndex? (binIndex (JSNum.fin m)
              (((JSNum.fin M).sub (JSNum.fin m)).div (JSNum.fin 10))
              (JSNum.fin d.frequency)) = some i))) } := by
  obtain ⟨m, M, hm, hM, hb, hmin, hmax⟩ := histogram_extrema data hne
  exact ⟨m, M, hm, hM, hb, frequencyHistogram_closed data m M hmin hmax hlen⟩

/-! ### The clamped index -/

theorem mathMin_pair_fin (a b : ℚ) :
    mathMin [JSNum.fin a, JSNum.fin b] = JSNum.fin (min a b) := by
  have := mathMin_fin_cons a [b]
  simpa using this

theorem bins_sub_one : JSNum.fin ((bins : ℚ) - 1) = JSNum.fin 9 := by
  norm_num [bins]

theorem arrayIndex_intCast (k : ℤ) (h0 : 0 ≤ k) (h1 : k ≤ 9) :
    arrayIndex? (JSNum.fin (k : ℚ)) = some k.toNat := by
  have h2 : k < 4294967295 := by omega
  simp [arrayIndex?, h0, h2]

theorem arrayIndex_intCast_neg (k : ℤ) (h0 : k < 0) :
    arrayIndex? (JSNum.fin (k : ℚ)) = none := by
  have : ¬ 0 ≤ k := by omega
  simp [arrayIndex?, this]

/-- The clamped index of a finite quotient. -/
theorem clamp_fin (x : ℚ) :
    mathMin [(JSNum.fin x).floor, JSNum.fin ((bins : ℚ) - 1)]
      = JSNum.fin ((min ⌊x⌋ 9 : ℤ) : ℚ) := by
  rw [bins_sub_one]
  simp only [JSNum.floor]
  rw [mathMin_pair_fin]
  congr 1
  have : (9 : ℚ) = ((9 : ℤ) : ℚ) := by norm_num
  rw [this, ← Int.cast_min]

/-- The index a quotient is counted under is `i` exactly when the quotient lies
in `[i, i + 1)`, index `9` taking every quotient from `9` on; `NaN` and
negative quotients have no index. -/
theorem arrayIndex_clamp_iff (q : JSNum) (i : ℕ) (hi : i < 10) :
    arrayIndex? (mathMin [q.floor, JSNum.fin ((bins : ℚ) - 1)]) = some i
      ↔ inQuotientBin q i = true := by
  cases q with
  | fin x =>
    rw [clamp_fin]
    have hA : ((i : ℚ) ≤ x) ↔ (i : ℤ) ≤ ⌊x⌋ := by
      rw [Int.le_floor]; push_cast; rfl
    have hB : (x < (i : ℚ) + 1) ↔ ⌊x⌋ < (i : ℤ) + 1 := by
      rw [Int.floor_lt]; push_cast; rfl
    simp only [inQuotientBin, JSNum.le, JSNum.lt, Bool.and_eq_true, Bool.or_eq_true,
      decide_eq_true_eq, hA, hB]
    by_cases h0 : 0 ≤ min ⌊x⌋ 9
    · rw [arrayIndex_intCast _ h0 (min_le_right _ _)]
      simp only [Option.some.injEq]
      omega
    · rw [arrayIndex_intCast_neg _ (by omega)]
      constructor
      · intro h
        exact Option.noConfusion h
      · intro h
        omega
  | posInf =>
    rw [bins_sub_one]
    have h1 : mathMin [JSNum.posInf.floor, JSNum.fin 9] = JSNum.fin ((9 : ℤ) : ℚ) := by
      simp [mathMin, mathMinFrom, JSNum.floor, JSNum.lt]
    rw [h1, arrayIndex_intCast 9 (by norm_num) (by norm_num)]
    simp [inQuotientBin, JSNum.le, JSNum.lt]
    omega
  | negInf =>
    rw [bins_sub_one]
    have h1 : mathMin [JSNum.negInf.floor, JSNum.fin 9] = JSNum.negInf := by
      simp [mathMin, mathMinFrom, JSNum.floor, JSNum.lt]
    rw [h1]
    simp [inQuotientBin, JSNum.le, arrayIndex?]
  | nan =>
    rw [bins_sub_one]
    have h1 : mathMin [JSNum.nan.floor, JSNum.fin 9] = JSNum.nan := by
      simp [mathMin, mathMinFrom, JSNum.floor]
    rw [h1]
    simp [inQuotientBin, JSNum.le, arrayIndex?]

/-- The clamp leaves no index above `9`. -/
theorem arrayIndex_clamp_le (q : JSNum) (i : ℕ)
    (h : arrayIndex? (mathMin [q.floor, JSNum.fin ((bins : ℚ) - 1)]) = some i) : i ≤ 9 := by
  cases q with
  | fin x =>
    rw [clamp_fin] at h
    by_cases h0 : 0 ≤ min ⌊x⌋ 9
    · rw [arrayIndex_intCast _ h0 (min_le_right _ _)] at h
      have := Option.some.inj h
      omega
    · rw [arrayIndex_intCast_neg _ (by omega)] at h
      exact Option.noConfusion h
  | posInf =>
    rw [bins_sub_one] at h
    have h1 : mathMin [JSNum.posInf.floor, JSNum.fin 9] = JSNum.fin ((9 : ℤ) : ℚ) := by
      simp [mathMin, mathMinFrom, JSNum.floor, JSNum.lt]
    rw [h1, arrayIndex_intCast 9 (by norm_num) (by norm_num)] at h
    have := Option.some.inj h
    omega
  | negInf =>
    rw [bins_sub_one] at h
    have h1 : mathMin [JSNum.negInf.floor, JSNum.fin 9] = JSNum.negInf := by
      simp [mathMin, mathMinFrom, JSNum.floor, JSNum.lt]
    rw [h1] at h
    simp [arrayIndex?] at h
  | nan =>
    rw [bins_sub_one] at h
    have h1 : mathMin [JSNum.nan.floor, JSNum.fin 9] = JSNum.nan := by
      simp [mathMin, mathMinFrom, JSNum.floor]
    rw [h1] at h
    simp [arrayIndex?] at h

/-- A quotient that is a non-negative number or `+Infinity` has an index in
`0..9`. -/
theorem exists_index_of_nonneg (q : JSNum)
    (h : q = JSNum.posInf ∨ ∃ x : ℚ, 0 ≤ x ∧ q = JSNum.fin x) :
    ∃ i, i < 10 ∧ arrayIndex? (mathMin [q.floor, JSNum.fin ((bins : ℚ) - 1)]) = some i := by
  rcases h with rfl | ⟨x, hx, rfl⟩
  · refine ⟨9, by norm_num, ?_⟩
    rw [arrayIndex_clamp_iff _ 9 (by norm_num)]
    simp [inQuotientBin, JSNum.le]
  · have h0 : 0 ≤ min ⌊x⌋ 9 := le_min (Int.floor_nonneg.mpr hx) (by norm_num)
    refine ⟨(min ⌊x⌋ 9).toNat, by omega, ?_⟩
    rw [clamp_fin]
    exact arrayIndex_intCast _ h0 (min_le_right _ _)

/-- The difference `f - min` of a sample and a lower bound is a non-negative
number or `+Infinity`. -/
theorem sub_of_le (m f : ℚ) (hmf : m ≤ f) :
    (JSNum.fin f).sub (JSNum.fin m) = JSNum.posInf ∨
      ∃ r : ℚ, 0 ≤ r ∧ (JSNum.fin f).sub (JSNum.fin m) = JSNum.fin r := by
  simp only [JSNum.sub]
  rcases round64_of_nonneg (f - m) (by linarith) with h | ⟨r, h1, h2, _, _⟩
  · exact Or.inl h
  · exact Or.inr ⟨r, h2, h1⟩

/-- The quotient of a sample by a positive finite `binSize` is a non-negative
number or `+Infinity`. -/
theorem binQuotient_of_le (m f b : ℚ) (hmf : m ≤ f) (hb : 0 < b) :
    binQuotient (JSNum.fin m) (JSNum.fin b) (JSNum.fin f) = JSNum.posInf ∨
      ∃ x : ℚ, 0 ≤ x ∧ binQuotient (JSNum.fin m) (JSNum.fin b) (JSNum.fin f) = JSNum.fin x := by
  unfold binQuotient
  rcases sub_of_le m f hmf with h | ⟨r, hr, h⟩
  · left
    rw [h]
    simp [JSNum.div, hb.le]
  · rw [h]
    simp only [JSNum.div, hb.ne.symm, if_false]
    rcases round64_of_nonneg (r / b) (div_nonneg hr hb.le) with h' | ⟨x, h1, h2, _, _⟩
    · exact Or.inl h'
    · exact Or.inr ⟨x, h2, h1⟩

/-! ### Rounding of the quotient by a tenth -/

theorem floor_le_roundHalfEven (y : ℚ) : ⌊y⌋ ≤ roundHalfEven y := by
  unfold roundHalfEven
  simp only
  split_ifs <;> omega

theorem roundHalfEven_ge_of_le (N : ℤ) (y : ℚ) (h : (N : ℚ) ≤ y) : N ≤ roundHalfEven y :=
  le_trans (Int.le_floor.mpr h) (floor_le_roundHalfEven y)

/-- Half a unit below an even integer still rounds up to it. -/
theorem roundHalfEven_ge_even (N : ℤ) (hN : N % 2 = 0) (y : ℚ)
    (h : (N : ℚ) - 1 / 2 ≤ y) : N ≤ roundHalfEven y := by
  by_cases hy : (N : ℚ) ≤ y
  · exact roundHalfEven_ge_of_le N y hy
  · have hy' : y < (N : ℚ) := not_le.mp hy
    have hfl : ⌊y⌋ = N - 1 := by
      rw [Int.floor_eq_iff]
      push_cast
      constructor <;> linarith
    unfold roundHalfEven
    simp only [hfl]
    push_cast
    split_ifs with c1 c2 c3
    · exfalso; linarith
    · omega
    · exfalso; omega
    · omega

/-- When `5 * y` is an integer, rounding `y` moves it up by at most two
fifths. -/
theorem roundHalfEven_fifth (y : ℚ) (z : ℤ) (h5 : 5 * y = (z : ℚ)) :
    5 * ((roundHalfEven y : ℚ) - y) ≤ 2 := by
  obtain ⟨herr, _⟩ := roundHalfEven_spec y
  have h1 : (roundHalfEven y : ℚ) - y ≤ 1 / 2 := (abs_le.mp herr).2
  have h2 : 5 * ((roundHalfEven y : ℚ) - y) = ((5 * roundHalfEven y - z : ℤ) : ℚ) := by
    push_cast
    linarith
  rw [h2]
  have h3 : ((5 * roundHalfEven y - z : ℤ) : ℚ) < 3 := by
    rw [← h2]; linarith
  have h4 : (5 * roundHalfEven y - z : ℤ) < 3 := by exact_mod_cast h3
  have h5' : (5 * roundHalfEven y - z : ℤ) ≤ 2 := by omega
  exact_mod_cast h5'

theorem le_floorLog2 (q : ℚ) (hq : 0 < q) (k : ℤ) (h : (2 : ℚ) ^ k ≤ q) :
    k ≤ floorLog2 q := by
  obtain ⟨_, h2⟩ := floorLog2_spec q hq
  have : (2 : ℚ) ^ k < (2 : ℚ) ^ (floorLog2 q + 1) := lt_of_le_of_lt h h2
  have := (zpow_lt_zpow_iff_right₀ (by norm_num : (1 : ℚ) < 2)).mp this
  omega

theorem floorLog2_le (q : ℚ) (hq : 0 < q) (k : ℤ) (h : q < (2 : ℚ) ^ (k + 1)) :
    floorLog2 q ≤ k := by
  obtain ⟨h1, _⟩ := floorLog2_spec q hq
  have : (2 : ℚ) ^ floorLog2 q < (2 : ℚ) ^ (k + 1) := lt_of_le_of_lt h1 h
  have := (zpow_lt_zpow_iff_right₀ (by norm_num : (1 : ℚ) < 2)).mp this
  omega

/-- A quotient from half a unit in the last place below `10` up to `10.5`
rounds to a number in `[10, 11)`. -/
theorem round64_near_ten (x : ℚ) (h1 : 10 - 1 / 2 ^ (50 : ℕ) ≤ x) (h2 : x ≤ 21 / 2) :
    ∃ r : ℚ, round64 x = JSNum.fin r ∧ 10 ≤ r ∧ r < 11 := by
  have hsmall : (1 : ℚ) / 2 ^ (50 : ℕ) ≤ 1 := by
    rw [div_le_one (by positivity)]
    exact one_le_pow₀ (by norm_num)
  have hx : 0 < x := by linarith
  have hfl : floorLog2 x = 3 := by
    apply le_antisymm
    · apply floorLog2_le x hx
      norm_num
      linarith
    · apply le_floorLog2 x hx
      norm_num
      linarith
  have hrm : roundMagnitude x = (roundHalfEven (x * 2 ^ (49 : ℕ)) : ℚ) / 2 ^ (49 : ℕ) := by
    unfold roundMagnitude
    simp only [hfl]
    have hu : (2 : ℚ) ^ (max (3 : ℤ) (-1022) - 52) = 1 / 2 ^ (49 : ℕ) := by
      have : (max (3 : ℤ) (-1022) - 52) = -((49 : ℕ) : ℤ) := by norm_num
      rw [this, zpow_neg, zpow_natCast]
      simp
    rw [hu]
    have : x / (1 / 2 ^ (49 : ℕ)) = x * 2 ^ (49 : ℕ) := by field_simp
    rw [this]
    field_simp
  have hN : (10 * 2 ^ 49 : ℤ) ≤ roundHalfEven (x * 2 ^ (49 : ℕ)) := by
    apply roundHalfEven_ge_even
    · norm_num
    · have e : (2 : ℚ) ^ (49 : ℕ) / 2 ^ (50 : ℕ) = 1 / 2 := by norm_num
      have : (10 - 1 / 2 ^ (50 : ℕ)) * 2 ^ (49 : ℕ) ≤ x * 2 ^ (49 : ℕ) :=
        mul_le_mul_of_nonneg_right h1 (by positivity)
      have e2 : (10 - 1 / 2 ^ (50 : ℕ)) * (2 : ℚ) ^ (49 : ℕ)
          = ((10 * 2 ^ 49 : ℤ) : ℚ) - 1 / 2 := by
        rw [sub_mul, one_div_mul_eq_div, e]
        norm_num
      rw [e2] at this
      exact this
  obtain ⟨_, hb⟩ := roundMagnitude_spec x hx
  have hup : roundMagnitude x - x ≤ max (x / 2 ^ (53 : ℕ)) (1 / 2 ^ (1075 : ℕ)) :=
    (abs_le.mp hb).2
  have hm : max (x / 2 ^ (53 : ℕ)) (1 / 2 ^ (1075 : ℕ)) ≤ 1 / 4 := by
    apply max_le
    · have : x / 2 ^ (53 : ℕ) ≤ x / 42 :=
        div_le_div_of_nonneg_left hx.le (by norm_num) (by norm_num)
      linarith
    · have : (1 : ℚ) / 2 ^ (1075 : ℕ) ≤ 1 / 2 ^ (2 : ℕ) :=
        div_le_div_of_nonneg_left (by norm_num) (by positivity)
          (pow_le_pow_right₀ (by norm_num) (by norm_num))
      have e4 : (1 : ℚ) / 2 ^ (2 : ℕ) = 1 / 4 := by norm_num
      linarith
  have hlo : 10 ≤ roundMagnitude x := by
    rw [hrm, le_div_iff₀ (by positivity)]
    have : ((10 * 2 ^ 49 : ℤ) : ℚ) ≤ (roundHalfEven (x * 2 ^ (49 : ℕ)) : ℚ) := by
      exact_mod_cast hN
    push_cast at this
    linarith
  have hhi : roundMagnitude x < 11 := by linarith
  refine ⟨roundMagnitude x, ?_, hlo, hhi⟩
  rw [round64_of_pos x hx, if_neg]
  have : (11 : ℚ) ≤ 2 ^ (1024 : ℕ) := by
    have h4 : (2 : ℚ) ^ (4 : ℕ) ≤ 2 ^ (1024 : ℕ) :=
      pow_le_pow_right₀ (by norm_num) (by norm_num)
    have e16 : (2 : ℚ) ^ (4 : ℕ) = 16 := by norm_num
    linarith
  linarith


/-- Dividing a binary64 number `D` by `10` and dividing `D` by the rounded
result: when that result `b` is a normal number, `D / b` lies within half a
unit in the last place below `10` and `10.5`.  The rounding of `D / 10` moves
it by a multiple of a fifth of a unit, so by at most two fifths. -/
theorem div_by_rounded_tenth (y0 : ℚ) (hy0 : 0 < y0)
    (hD : 0 < roundMagnitude y0)
    (hnorm : 1 / 2 ^ (1022 : ℕ) ≤ roundMagnitude (roundMagnitude y0 / 10)) :
    10 - 1 / 2 ^ (50 : ℕ) ≤ roundMagnitude y0 / roundMagnitude (roundMagnitude y0 / 10) ∧
    roundMagnitude y0 / roundMagnitude (roundMagnitude y0 / 10) ≤ 21 / 2 := by
  have h2 : (1 : ℚ) < 2 := by norm_num
  have h2ne : (2 : ℚ) ≠ 0 := by norm_num
  -- the two rounded values as integer multiples of their units
  set D := roundMagnitude y0 with hDdef
  have hx : 0 < D / 10 := by positivity
  set x := D / 10 with hxdef
  set E0 : ℤ := max (floorLog2 y0) (-1022) with hE0
  set E : ℤ := max (floorLog2 x) (-1022) with hE
  have hDform : D = (roundHalfEven (y0 / (2 : ℚ) ^ (E0 - 52)) : ℚ) * (2 : ℚ) ^ (E0 - 52) := rfl
  have hbform : roundMagnitude x
      = (roundHalfEven (x / (2 : ℚ) ^ (E - 52)) : ℚ) * (2 : ℚ) ^ (E - 52) := rfl
  have hu : (0 : ℚ) < (2 : ℚ) ^ (E - 52) := by positivity
  have hE1022 : (-1022 : ℤ) ≤ E := le_max_right _ _
  have hpowE : (1 : ℚ) / 2 ^ (1022 : ℕ) ≤ (2 : ℚ) ^ E := by
    have : (2 : ℚ) ^ (-1022 : ℤ) ≤ (2 : ℚ) ^ E := zpow_le_zpow_right₀ h2.le hE1022
    have e : (2 : ℚ) ^ (-1022 : ℤ) = 1 / 2 ^ (1022 : ℕ) := by
      have : (-1022 : ℤ) = -((1022 : ℕ) : ℤ) := by norm_num
      rw [this, zpow_neg, zpow_natCast]; simp
    rw [e] at this
    exact this
  obtain ⟨_, hbx⟩ := roundMagnitude_spec x hx
  obtain ⟨_, hDy⟩ := roundMagnitude_spec y0 hy0
  have hbx1 := (abs_le.mp hbx).2
  have hDy1 := (abs_le.mp hDy).2
  have htiny : (1 : ℚ) / 2 ^ (1075 : ℕ) ≤ 1 / 2 ^ (1022 : ℕ) / 4 := by
    rw [div_div]
    apply div_le_div_of_nonneg_left (by norm_num) (by positivity)
    have : (2 : ℚ) ^ (1022 : ℕ) * 4 = 2 ^ (1024 : ℕ) := by
      rw [show (4 : ℚ) = 2 ^ (2 : ℕ) by norm_num, ← pow_add]
    rw [this]
    exact pow_le_pow_right₀ (by norm_num) (by norm_num)
  -- step 1: twice the quotient is at least the unit scale 2^E
  have hxE : (2 : ℚ) ^ E ≤ 2 * x := by
    by_cases hc : -1022 ≤ floorLog2 x
    · have : E = floorLog2 x := max_eq_left hc
      rw [this]
      have := (floorLog2_spec x hx).1
      linarith
    · have hEeq : E = -1022 := max_eq_right (by omega)
      have e : (2 : ℚ) ^ E = 1 / 2 ^ (1022 : ℕ) := by
        rw [hEeq]
        have : (-1022 : ℤ) = -((1022 : ℕ) : ℤ) := by norm_num
        rw [this, zpow_neg, zpow_natCast]; simp
      rw [e]
      by_contra hcon
      have hlt : 2 * x < 1 / 2 ^ (1022 : ℕ) := not_le.mp hcon
      have hm : max (x / 2 ^ (53 : ℕ)) (1 / 2 ^ (1075 : ℕ)) ≤ 1 / 2 ^ (1022 : ℕ) / 4 := by
        apply max_le _ htiny
        have : x / 2 ^ (53 : ℕ) ≤ x / 2 :=
          div_le_div_of_nonneg_left hx.le (by norm_num) (by norm_num)
        linarith
      have hpos1022 : (0 : ℚ) < 1 / 2 ^ (1022 : ℕ) := by positivity
      linarith
  have hD5 : 5 * (2 : ℚ) ^ E ≤ D := by
    have : D = 10 * x := by rw [hxdef]; ring
    linarith
  have hy0E : (2 : ℚ) ^ (E + 1) ≤ y0 := by
    by_contra hcon
    have hlt : y0 < (2 : ℚ) ^ (E + 1) := not_le.mp hcon
    have e1 : (2 : ℚ) ^ (E + 1) = 2 * (2 : ℚ) ^ E := by
      rw [zpow_add_one₀ h2ne]; ring
    have hpE : (0 : ℚ) < (2 : ℚ) ^ E := by positivity
    have hm : max (y0 / 2 ^ (53 : ℕ)) (1 / 2 ^ (1075 : ℕ)) ≤ (2 : ℚ) ^ E := by
      apply max_le
      · have : y0 / 2 ^ (53 : ℕ) ≤ y0 / 2 :=
          div_le_div_of_nonneg_left hy0.le (by norm_num) (by norm_num)
        linarith
      · have hpos1022 : (0 : ℚ) < 1 / 2 ^ (1022 : ℕ) := by positivity
        linarith
    linarith
  have hE0E : E + 1 ≤ E0 :=
    le_trans (le_floorLog2 y0 hy0 (E + 1) hy0E) (le_max_left _ _)
  -- step 2: five times the scaled quotient is an integer
  obtain ⟨k, hk⟩ := Int.eq_ofNat_of_zero_le (by omega : 0 ≤ E0 - E - 1)
  have hunits : (2 : ℚ) ^ (E0 - 52) = 2 * (2 : ℚ) ^ k * (2 : ℚ) ^ (E - 52) := by
    have : E0 - 52 = (E - 52) + ((k : ℤ) + 1) := by omega
    rw [this, zpow_add₀ h2ne, zpow_add_one₀ h2ne, zpow_natCast]
    ring
  set y := x / (2 : ℚ) ^ (E - 52) with hydef
  set nb := roundHalfEven y with hnb
  have h5y : 5 * y = ((roundHalfEven (y0 / (2 : ℚ) ^ (E0 - 52)) * 2 ^ k : ℤ) : ℚ) := by
    rw [hydef, hxdef, hDform, hunits]
    push_cast
    field_simp
    ring
  have hfifth := roundHalfEven_fifth y _ h5y
  obtain ⟨herr, _⟩ := roundHalfEven_spec y
  have hlow : y - (nb : ℚ) ≤ 1 / 2 := by
    have := (abs_le.mp herr).1
    linarith
  -- step 3: the rounded tenth has a full significand
  have hnb52 : (2 : ℚ) ^ (52 : ℕ) ≤ (nb : ℚ) := by
    by_cases hc : -1022 ≤ floorLog2 x
    · have hEeq : E = floorLog2 x := max_eq_left hc
      have hxlo := (floorLog2_spec x hx).1
      have hcast : (((2 : ℤ) ^ (52 : ℕ) : ℤ) : ℚ) = (2 : ℚ) ^ (52 : ℕ) := by norm_cast
      have hp52 : (0 : ℚ) < (2 : ℚ) ^ (52 : ℕ) := by positivity
      have hy52 : (((2 : ℤ) ^ (52 : ℕ) : ℤ) : ℚ) ≤ y := by
        rw [hcast, hydef, le_div_iff₀ hu]
        have hsplit : (2 : ℚ) ^ (E - 52) = (2 : ℚ) ^ E / 2 ^ (52 : ℕ) := by
          rw [zpow_sub₀ h2ne]
          congr 1
          norm_cast
        rw [hsplit, hEeq, mul_div_cancel₀ _ hp52.ne.symm]
        exact hxlo
      have hge := roundHalfEven_ge_of_le _ y hy52
      have hge' : (((2 : ℤ) ^ (52 : ℕ) : ℤ) : ℚ) ≤ (nb : ℚ) := by exact_mod_cast hge
      rw [hcast] at hge'
      exact hge'
    · have hEeq : E = -1022 := max_eq_right (by omega)
      have hueq : (2 : ℚ) ^ (E - 52) = 1 / 2 ^ (1074 : ℕ) := by
        rw [hEeq]
        have : ((-1022 : ℤ) - 52) = -((1074 : ℕ) : ℤ) := by norm_num
        rw [this, zpow_neg, zpow_natCast]; simp
      have hb' : (1 : ℚ) / 2 ^ (1022 : ℕ) ≤ (nb : ℚ) * (1 / 2 ^ (1074 : ℕ)) := by
        rw [← hueq]
        exact hnorm
      have e : (2 : ℚ) ^ (1074 : ℕ) = 2 ^ (1022 : ℕ) * 2 ^ (52 : ℕ) := by
        rw [← pow_add]
      rw [e] at hb'
      have hp : (0 : ℚ) < 2 ^ (1022 : ℕ) := by positivity
      have hp52 : (0 : ℚ) < 2 ^ (52 : ℕ) := by positivity
      rw [div_le_iff₀ hp] at hb'
      have : (nb : ℚ) * (1 / (2 ^ (1022 : ℕ) * 2 ^ (52 : ℕ))) * 2 ^ (1022 : ℕ)
          = (nb : ℚ) / 2 ^ (52 : ℕ) := by
        field_simp
        ring
      rw [this, le_div_iff₀ hp52] at hb'
      linarith
  -- step 4: the quotient
  have hnbpos : (0 : ℚ) < (nb : ℚ) := lt_of_lt_of_le (by positivity) hnb52
  have hquot : D / roundMagnitude x = 10 * y / (nb : ℚ) := by
    rw [hbform]
    have : D = 10 * y * (2 : ℚ) ^ (E - 52) := by
      rw [hydef, hxdef]; field_simp; ring
    rw [this]
    field_simp
    ring
  rw [hquot]
  have h52 : (2 : ℚ) ^ (52 : ℕ) = 4 * 2 ^ (50 : ℕ) := by
    rw [show (4 : ℚ) = 2 ^ (2 : ℕ) by norm_num, ← pow_add]
  have hp50 : (0 : ℚ) < 2 ^ (50 : ℕ) := by positivity
  constructor
  · rw [le_div_iff₀ hnbpos]
    have hd : (1 : ℚ) / 2 ^ (50 : ℕ) * (nb : ℚ) ≥ 4 := by
      rw [ge_iff_le, one_div_mul_eq_div, le_div_iff₀ hp50]
      linarith
    linarith
  · rw [div_le_iff₀ hnbpos]
    have : (10 : ℚ) ≤ (nb : ℚ) := by
      have : (16 : ℚ) ≤ 2 ^ (52 : ℕ) := by
        have h4 : (2 : ℚ) ^ (4 : ℕ) ≤ 2 ^ (52 : ℕ) :=
          pow_le_pow_right₀ (by norm_num) (by norm_num)
        have e16 : (2 : ℚ) ^ (4 : ℕ) = 16 := by norm_num
        linarith
      linarith
    linarith

/-! ## The histogram claims -/

theorem binIndex_eq (min binSize f : JSNum) :
    binIndex min binSize f
      = mathMin [(binQuotient min binSize f).floor, JSNum.fin ((bins : ℚ) - 1)] := rfl

/-- C1 (as amended): for non-empty frequency data of fewer than `2^32` samples
whose `binSize`, computed in binary64, is a positive finite number, the binning
pass of `updateFrequencyChart` leaves ten bin counts that sum to the number of
samples, and every sample increments one of the bins `0..9`. -/
theorem bin_counts_sum_to_length (frequencyData : List FrequencySample)
    (hne : frequencyData ≠ []) (hlen : frequencyData.length < 2 ^ 32) (b : ℚ)
    (hbs : (frequencyHistogram frequencyData).binSize = JSNum.fin b) (hb : 0 < b) :
    (frequencyHistogram frequencyData).distribution.length = 10 ∧
    jsSum (frequencyHistogram frequencyData).distribution
      = JSNum.fin (frequencyData.length : ℚ) ∧
    ∀ d ∈ frequencyData, ∃ i, i < 10 ∧
      arrayIndex? (binIndex (frequencyHistogram frequencyData).min
        (frequencyHistogram frequencyData).binSize (JSNum.fin d.frequency)) = some i := by
  obtain ⟨m, M, _, _, hbd, hclosed⟩ := frequencyHistogram_nonempty frequencyData hne hlen
  rw [hclosed] at hbs ⊢
  simp only at hbs ⊢
  rw [hbs]
  have hidx : ∀ d ∈ frequencyData, ∃ i, i < 10 ∧
      arrayIndex? (binIndex (JSNum.fin m) (JSNum.fin b) (JSNum.fin d.frequency)) = some i := by
    intro d hd
    rw [binIndex_eq]
    exact exists_index_of_nonneg _ (binQuotient_of_le m d.frequency b (hbd d hd).1 hb)
  have hsum := sum_countP_range 10 (fun d : FrequencySample =>
    arrayIndex? (binIndex (JSNum.fin m) (JSNum.fin b) (JSNum.fin d.frequency)))
    frequencyData hidx
  refine ⟨natArr_length _ _, ?_, hidx⟩
  rw [jsSum_natArr, hsum]
  rw [hsum]
  have : (2 : ℕ) ^ 32 < 2 ^ 53 := by norm_num
  omega

theorem bin_counts_sum_to_length_witness :
    ([⟨1⟩, ⟨1⟩, ⟨2⟩, ⟨3⟩, ⟨3⟩] : List FrequencySample) ≠ [] ∧
    (frequencyHistogram [⟨1⟩, ⟨1⟩, ⟨2⟩, ⟨3⟩, ⟨3⟩]).binSize
      = JSNum.fin (3602879701896397 / 18014398509481984) ∧
    jsSum (frequencyHistogram [⟨1⟩, ⟨1⟩, ⟨2⟩, ⟨3⟩, ⟨3⟩]).distribution = JSNum.fin 5 := by
  refine ⟨by decide, by decide!, ?_⟩
  have h := (bin_counts_sum_to_length [⟨1⟩, ⟨1⟩, ⟨2⟩, ⟨3⟩, ⟨3⟩] (by decide) (by decide)
    (3602879701896397 / 18014398509481984) (by decide!) (by norm_num)).2.1
  simpa using h

/-- C1 fails as stated: the frequencies `0` and `5e-324` (the binary64 number
`2^(-1074)`) have `max > min`, yet `binSize` underflows to `0`, the sample `0`
gets the index `NaN` and is dropped, and the ten counts sum to `1`, not to the
length `2`. -/
theorem bin_counts_drop_a_sample_on_underflow :
    isBinary64 (1 / 2 ^ 1074) = true ∧
    (frequencyHistogram [⟨0⟩, ⟨1 / 2 ^ 1074⟩]).min.lt
      (frequencyHistogram [⟨0⟩, ⟨1 / 2 ^ 1074⟩]).max = true ∧
    (frequencyHistogram [⟨0⟩, ⟨1 / 2 ^ 1074⟩]).binSize = JSNum.fin 0 ∧
    binIndex (frequencyHistogram [⟨0⟩, ⟨1 / 2 ^ 1074⟩]).min
      (frequencyHistogram [⟨0⟩, ⟨1 / 2 ^ 1074⟩]).binSize (JSNum.fin 0) = JSNum.nan ∧
    jsSum (frequencyHistogram [⟨0⟩, ⟨1 / 2 ^ 1074⟩]).distribution = JSNum.fin 1 ∧
    jsSum (frequencyHistogram [⟨0⟩, ⟨1 / 2 ^ 1074⟩]).distribution
      ≠ JSNum.fin (([⟨0⟩, ⟨1 / 2 ^ 1074⟩] : List FrequencySample).length : ℚ) := by
  decide!

/-- C9 (as amended): for non-empty frequency data of fewer than `2^32` samples,
with `binSize = (max - min) / 10` and each quotient `q = (f - min) / binSize`
computed in binary64, bin `i` of the binning pass of `updateFrequencyChart`
counts the samples with `i <= q < i + 1`, bin `9` counting every sample with
`q >= 9`. -/
theorem bins_count_quotient_intervals (frequencyData : List FrequencySample)
    (hne : frequencyData ≠ []) (hlen : frequencyData.length < 2 ^ 32) :
    (frequencyHistogram frequencyData).binSize =
      ((frequencyHistogram frequencyData).max.sub
        (frequencyHistogram frequencyData).min).div (JSNum.fin 10) ∧
    (frequencyHistogram frequencyData).distribution =
      (List.range 10).map (fun i => JSNum.fin
        ((frequencyData.countP (fun d =>
          inQuotientBin (binQuotient (frequencyHistogram frequencyData).min
            (frequencyHistogram frequencyData).binSize (JSNum.fin d.frequency)) i) : ℕ) : ℚ)) := by
  obtain ⟨m, M, _, _, _, hclosed⟩ := frequencyHistogram_nonempty frequencyData hne hlen
  rw [hclosed]
  refine ⟨rfl, ?_⟩
  simp only
  apply List.ext_getElem?
  intro i
  rw [natArr_getElem?]
  by_cases hi : i < 10
  · simp only [hi, if_true]
    rw [List.getElem?_map, List.getElem?_range hi]
    simp only [Option.map_some']
    congr 3
    apply List.countP_congr
    intro d _
    rw [binIndex_eq]
    simp only [decide_eq_true_eq]
    exact arrayIndex_clamp_iff _ i hi
  · simp only [hi, if_false]
    rw [List.getElem?_map, List.getElem?_eq_none (by simp; omega)]
    rfl

theorem bins_count_quotient_intervals_witness :
    ([⟨1⟩, ⟨1⟩, ⟨2⟩, ⟨3⟩, ⟨3⟩] : List FrequencySample) ≠ [] ∧
    (frequencyHistogram [⟨1⟩, ⟨1⟩, ⟨2⟩, ⟨3⟩, ⟨3⟩]).distribution =
      (List.range 10).map (fun i => JSNum.fin
        ((([⟨1⟩, ⟨1⟩, ⟨2⟩, ⟨3⟩, ⟨3⟩] : List FrequencySample).countP (fun d =>
          inQuotientBin (binQuotient (frequencyHistogram [⟨1⟩, ⟨1⟩, ⟨2⟩, ⟨3⟩, ⟨3⟩]).min
            (frequencyHistogram [⟨1⟩, ⟨1⟩, ⟨2⟩, ⟨3⟩, ⟨3⟩]).binSize
            (JSNum.fin d.frequency)) i) : ℕ) : ℚ)) :=
  ⟨by decide,
    (bins_count_quotient_intervals [⟨1⟩, ⟨1⟩, ⟨2⟩, ⟨3⟩, ⟨3⟩] (by decide) (by decide)).2⟩

/-- C9 fails as stated: for the binary64 frequencies `0.2`, `0.5`, `1.2` the
sample `0.5` lies in the interval of bin `3` in exact arithmetic, but the
binary64 quotient `(0.5 - 0.2) / 0.1` is just below `3` and the code counts it
in bin `2`: the counts are `[1,0,1,0,0,0,0,0,0,1]`, the intervals hold
`[1,0,0,1,0,0,0,0,0,1]`. -/
theorem bins_differ_from_labelled_intervals :
    isBinary64 (3602879701896397 / 18014398509481984) = true ∧
    isBinary64 (5404319552844595 / 4503599627370496) = true ∧
    (frequencyHistogram [⟨3602879701896397 / 18014398509481984⟩, ⟨1 / 2⟩,
      ⟨5404319552844595 / 4503599627370496⟩]).distribution
      = [JSNum.fin 1, JSNum.fin 0, JSNum.fin 1, JSNum.fin 0, JSNum.fin 0, JSNum.fin 0,
         JSNum.fin 0, JSNum.fin 0, JSNum.fin 0, JSNum.fin 1] ∧
    (List.range 10).map (fun i =>
      ([⟨3602879701896397 / 18014398509481984⟩, ⟨1 / 2⟩,
        ⟨5404319552844595 / 4503599627370496⟩] : List FrequencySample).countP (fun d =>
        inLabelledBin (3602879701896397 / 18014398509481984)
          (5404319552844595 / 4503599627370496)
          ((5404319552844595 / 4503599627370496 - 3602879701896397 / 18014398509481984) / 10)
          i d.frequency))
      = [1, 0, 0, 1, 0, 0, 0, 0, 0, 1] := by
  decide!


/-- The binary64 difference `D` of the extrema and the quotient `D / binSize`,
when `binSize` is a normal number: the quotient rounds to a number in
`[10, 11)`. -/
theorem max_quotient_near_ten (m M b : ℚ) (hmM : m ≤ M)
    (hbs : ((JSNum.fin M).sub (JSNum.fin m)).div (JSNum.fin 10) = JSNum.fin b)
    (hnormal : 1 / 2 ^ (1022 : ℕ) ≤ b) :
    ∃ r : ℚ, binQuotient (JSNum.fin m) (JSNum.fin b) (JSNum.fin M) = JSNum.fin r ∧
      10 ≤ r ∧ r < 11 := by
  have hbpos : 0 < b := lt_of_lt_of_le (by positivity) hnormal
  have h10 : (10 : ℚ) ≠ 0 := by norm_num
  simp only [JSNum.sub] at hbs
  rcases (sub_nonneg.mpr hmM).eq_or_lt with h0 | hpos
  · exfalso
    rw [← h0, round64_zero] at hbs
    simp only [JSNum.div, h10, if_false, zero_div, round64_zero] at hbs
    have : (0 : ℚ) = b := JSNum.fin.inj hbs
    linarith
  · rw [round64_of_pos _ hpos] at hbs
    by_cases hover : (2 : ℚ) ^ (1024 : ℕ) ≤ roundMagnitude (M - m)
    · exfalso
      rw [if_pos hover] at hbs
      simp [JSNum.div] at hbs
    · rw [if_neg hover] at hbs
      simp only [JSNum.div, h10, if_false] at hbs
      have hD0 : 0 ≤ roundMagnitude (M - m) := (roundMagnitude_spec _ hpos).1
      rcases hD0.eq_or_lt with hz | hDpos
      · exfalso
        rw [← hz] at hbs
        simp only [zero_div, round64_zero] at hbs
        have : (0 : ℚ) = b := JSNum.fin.inj hbs
        linarith
      · have hx : 0 < roundMagnitude (M - m) / 10 := by positivity
        rw [round64_of_pos _ hx] at hbs
        by_cases hover2 : (2 : ℚ) ^ (1024 : ℕ) ≤ roundMagnitude (roundMagnitude (M - m) / 10)
        · exfalso
          rw [if_pos hover2] at hbs
          exact JSNum.noConfusion hbs
        · rw [if_neg hover2] at hbs
          have hb : roundMagnitude (roundMagnitude (M - m) / 10) = b := JSNum.fin.inj hbs
          have hkey := div_by_rounded_tenth (M - m) hpos hDpos (by rw [hb]; exact hnormal)
          rw [hb] at hkey
          obtain ⟨r, hr, h1, h2⟩ := round64_near_ten _ hkey.1 hkey.2
          refine ⟨r, ?_, h1, h2⟩
          unfold binQuotient
          simp only [JSNum.sub]
          rw [round64_of_pos _ hpos, if_neg hover]
          simp only [JSNum.div, hbpos.ne.symm, if_false]
          exact hr

/-- C2 (as amended): for non-empty frequency data of fewer than `2^32` samples
whose `binSize`, computed in binary64, is a normal number (finite and at least
`2^(-1022)`), a sample equal to `max` has raw index `10`, its clamped index is
`9`, bin `9` counts at least all such samples, and no sample has an index of
`10` or more. -/
theorem max_sample_in_last_bin (frequencyData : List FrequencySample)
    (hne : frequencyData ≠ []) (hlen : frequencyData.length < 2 ^ 32) (b : ℚ)
    (hbs : (frequencyHistogram frequencyData).binSize = JSNum.fin b)
    (hnormal : 1 / 2 ^ (1022 : ℕ) ≤ b) :
    (∀ d ∈ frequencyData,
      JSNum.fin d.frequency = (frequencyHistogram frequencyData).max →
        rawBinIndex (frequencyHistogram frequencyData).min
          (frequencyHistogram frequencyData).binSize (JSNum.fin d.frequency) = JSNum.fin 10 ∧
        binIndex (frequencyHistogram frequencyData).min
          (frequencyHistogram frequencyData).binSize (JSNum.fin d.frequency) = JSNum.fin 9) ∧
    (∃ c : ℕ, (frequencyHistogram frequencyData).distribution[9]? = some (JSNum.fin (c : ℚ)) ∧
      frequencyData.countP (fun d =>
        decide (JSNum.fin d.frequency = (frequencyHistogram frequencyData).max)) ≤ c) ∧
    ∀ d ∈ frequencyData, ∃ i, i ≤ 9 ∧
      arrayIndex? (binIndex (frequencyHistogram frequencyData).min
        (frequencyHistogram frequencyData).binSize (JSNum.fin d.frequency)) = some i := by
  obtain ⟨m, M, _, hM, hbd, hclosed⟩ := frequencyHistogram_nonempty frequencyData hne hlen
  have hbpos : 0 < b := lt_of_lt_of_le (by positivity) hnormal
  have hmM : m ≤ M := by
    obtain ⟨d, hd, rfl⟩ := List.mem_map.mp hM
    exact (hbd d hd).1
  rw [hclosed] at hbs ⊢
  simp only at hbs ⊢
  obtain ⟨r, hr, hr1, hr2⟩ := max_quotient_near_ten m M b hmM hbs hnormal
  rw [hbs]
  have hfloor : ⌊r⌋ = 10 := by
    rw [Int.floor_eq_iff]
    constructor
    · exact_mod_cast hr1
    · have : ((10 : ℤ) : ℚ) + 1 = 11 := by norm_num
      rw [this]; exact hr2
  have hraw : rawBinIndex (JSNum.fin m) (JSNum.fin b) (JSNum.fin M) = JSNum.fin 10 := by
    unfold rawBinIndex
    rw [hr]
    simp only [JSNum.floor, hfloor]
    norm_num
  have hidx : binIndex (JSNum.fin m) (JSNum.fin b) (JSNum.fin M) = JSNum.fin 9 := by
    unfold binIndex
    rw [hraw, mathMin_pair_fin]
    norm_num [bins]
  refine ⟨?_, ?_, ?_⟩
  · intro d _ hdM
    have : d.frequency = M := by simpa using hdM
    rw [this]
    exact ⟨hraw, hidx⟩
  · refine ⟨frequencyData.countP (fun d =>
        decide (arrayIndex? (binIndex (JSNum.fin m) (JSNum.fin b)
          (JSNum.fin d.frequency)) = some 9)), ?_, ?_⟩
    · rw [natArr_getElem?]
      simp
    · apply List.countP_mono_left
      intro d _ hd
      have : d.frequency = M := by simpa using hd
      rw [this, hidx]
      simp [arrayIndex?]
  · intro d hd
    rw [binIndex_eq]
    obtain ⟨i, hi, hi'⟩ := exists_index_of_nonneg _
      (binQuotient_of_le m d.frequency b (hbd d hd).1 hbpos)
    exact ⟨i, by omega, hi'⟩

theorem max_sample_in_last_bin_witness :
    ([⟨1⟩, ⟨1⟩, ⟨2⟩, ⟨3⟩, ⟨3⟩] : List FrequencySample) ≠ [] ∧
    (frequencyHistogram [⟨1⟩, ⟨1⟩, ⟨2⟩, ⟨3⟩, ⟨3⟩]).binSize
      = JSNum.fin (3602879701896397 / 18014398509481984) ∧
    (1 : ℚ) / 2 ^ (1022 : ℕ) ≤ 3602879701896397 / 18014398509481984 ∧
    rawBinIndex (frequencyHistogram [⟨1⟩, ⟨1⟩, ⟨2⟩, ⟨3⟩, ⟨3⟩]).min
      (frequencyHistogram [⟨1⟩, ⟨1⟩, ⟨2⟩, ⟨3⟩, ⟨3⟩]).binSize (JSNum.fin 3) = JSNum.fin 10 ∧
    binIndex (frequencyHistogram [⟨1⟩, ⟨1⟩, ⟨2⟩, ⟨3⟩, ⟨3⟩]).min
      (frequencyHistogram [⟨1⟩, ⟨1⟩, ⟨2⟩, ⟨3⟩, ⟨3⟩]).binSize (JSNum.fin 3) = JSNum.fin 9 := by
  refine ⟨by decide, by decide!, by decide!, ?_⟩
  exact (max_sample_in_last_bin [⟨1⟩, ⟨1⟩, ⟨2⟩, ⟨3⟩, ⟨3⟩] (by decide) (by decide)
    (3602879701896397 / 18014398509481984) (by decide!) (by decide!)).1
    ⟨3⟩ (by decide) (by decide!)

/-- C2 fails as stated: the frequencies `0` and `7.4e-323` (the binary64 number
`15 * 2^(-1074)`) have `max > min`, yet `binSize` rounds from `1.5` to `2`
units of `2^(-1074)`, so the sample equal to `max` has raw index `7` and is
counted in bin `7`; bin `9` stays empty. -/
theorem max_sample_misses_last_bin_on_underflow :
    isBinary64 (15 / 2 ^ 1074) = true ∧
    (frequencyHistogram [⟨0⟩, ⟨15 / 2 ^ 1074⟩]).min.lt
      (frequencyHistogram [⟨0⟩, ⟨15 / 2 ^ 1074⟩]).max = true ∧
    (frequencyHistogram [⟨0⟩, ⟨15 / 2 ^ 1074⟩]).max = JSNum.fin (15 / 2 ^ 1074) ∧
    (frequencyHistogram [⟨0⟩, ⟨15 / 2 ^ 1074⟩]).binSize = JSNum.fin (2 / 2 ^ 1074) ∧
    rawBinIndex (frequencyHistogram [⟨0⟩, ⟨15 / 2 ^ 1074⟩]).min
      (frequencyHistogram [⟨0⟩, ⟨15 / 2 ^ 1074⟩]).binSize (JSNum.fin (15 / 2 ^ 1074))
      = JSNum.fin 7 ∧
    binIndex (frequencyHistogram [⟨0⟩, ⟨15 / 2 ^ 1074⟩]).min
      (frequencyHistogram [⟨0⟩, ⟨15 / 2 ^ 1074⟩]).binSize (JSNum.fin (15 / 2 ^ 1074))
      = JSNum.fin 7 ∧
    (frequencyHistogram [⟨0⟩, ⟨15 / 2 ^ 1074⟩]).distribution
      = [JSNum.fin 1, JSNum.fin 0, JSNum.fin 0, JSNum.fin 0, JSNum.fin 0, JSNum.fin 0,
         JSNum.fin 0, JSNum.fin 1, JSNum.fin 0, JSNum.fin 0] := by
  decide!


theorem foldl_arrayIncr_none (idx : JSNum → JSNum) (l : List JSNum) (arr : List JSNum)
    (h : ∀ f ∈ l, arrayIndex? (idx f) = none) :
    l.foldl (fun dist f => arrayIncr dist (idx f)) arr = arr := by
  induction l generalizing arr with
  | nil => rfl
  | cons a l ih =>
    rw [List.foldl_cons]
    have ha : arrayIncr arr (idx a) = arr := by
      unfold arrayIncr
      rw [h a (List.mem_cons_self _ _)]
    rw [ha]
    exact ih arr (fun f hf => h f (List.mem_cons_of_mem _ hf))

/-- The binning pass on non-empty data whose frequencies are all equal: both
extrema are the common value, `binSize` is `0`, every index is `NaN` and the
ten counts stay `0`. -/
theorem histogram_of_all_equal (data : List FrequencySample) (hne : data ≠ [])
    (hall : ∀ d ∈ data, ∀ e ∈ data, d.frequency = e.frequency) :
    ∃ v : ℚ, (∀ d ∈ data, d.frequency = v) ∧
      (frequencyHistogram data).min = JSNum.fin v ∧
      (frequencyHistogram data).max = JSNum.fin v ∧
      (frequencyHistogram data).binSize = JSNum.fin 0 ∧
      ((JSNum.fin v).sub (JSNum.fin v)).div (JSNum.fin 0) = JSNum.nan ∧
      binIndex (JSNum.fin v) (JSNum.fin 0) (JSNum.fin v) = JSNum.nan ∧
      (frequencyHistogram data).distribution = List.replicate 10 (JSNum.fin 0) := by
  obtain ⟨m, M, hm, hM, _, hmin, hmax⟩ := histogram_extrema data hne
  obtain ⟨dm, hdm, rfl⟩ := List.mem_map.mp hm
  obtain ⟨dM, hdM, rfl⟩ := List.mem_map.mp hM
  have hMm : dM.frequency = dm.frequency := hall dM hdM dm hdm
  rw [hMm] at hmax
  have hv : ∀ d ∈ data, d.frequency = dm.frequency := fun d hd => hall d hd dm hdm
  have hsub : (JSNum.fin dm.frequency).sub (JSNum.fin dm.frequency) = JSNum.fin 0 := by
    simp [JSNum.sub, round64_zero]
  have hdiv : ((JSNum.fin dm.frequency).sub (JSNum.fin dm.frequency)).div (JSNum.fin 0)
      = JSNum.nan := by
    rw [hsub]
    simp [JSNum.div]
  have hidx : binIndex (JSNum.fin dm.frequency) (JSNum.fin 0) (JSNum.fin dm.frequency)
      = JSNum.nan := by
    simp [binIndex, rawBinIndex, binQuotient, hdiv, JSNum.floor, mathMin, mathMinFrom]
  have hbs : ((JSNum.fin dm.frequency).sub (JSNum.fin dm.frequency)).div
      (JSNum.fin ((bins : ℕ) : ℚ)) = JSNum.fin 0 := by
    rw [hsub]
    simp [JSNum.div, bins, round64_zero]
  refine ⟨dm.frequency, hv, ?_⟩
  unfold frequencyHistogram
  simp only [map_fin_frequencies, hmin, hmax, hbs]
  refine ⟨trivial, trivial, trivial, hdiv, hidx, ?_⟩
  have hb : bins = 10 := rfl
  rw [hb]
  apply foldl_arrayIncr_none
  intro f hf
  obtain ⟨x, hx, rfl⟩ := List.mem_map.mp hf
  obtain ⟨d, hd, rfl⟩ := List.mem_map.mp hx
  rw [hv d hd, hidx]
  rfl

/-- C6: for non-empty frequency data whose frequencies are all equal, the
binning pass of `updateFrequencyChart` (a total function) yields ten bin
counts, each a natural number. -/
theorem degenerate_bins_are_counts (frequencyData : List FrequencySample)
    (hne : frequencyData ≠ [])
    (hall : ∀ d ∈ frequencyData, ∀ e ∈ frequencyData, d.frequency = e.frequency) :
    (frequencyHistogram frequencyData).distribution.length = 10 ∧
    ∀ x ∈ (frequencyHistogram frequencyData).distribution,
      ∃ n : ℕ, x = JSNum.fin (n : ℚ) := by
  obtain ⟨v, _, _, _, _, _, _, hdist⟩ := histogram_of_all_equal frequencyData hne hall
  rw [hdist]
  refine ⟨by simp, ?_⟩
  intro x hx
  exact ⟨0, by simpa using (List.mem_replicate.mp hx).2⟩

theorem degenerate_bins_are_counts_witness :
    ([⟨2⟩, ⟨2⟩, ⟨2⟩] : List FrequencySample) ≠ [] ∧
    (∀ d ∈ ([⟨2⟩, ⟨2⟩, ⟨2⟩] : List FrequencySample),
      ∀ e ∈ ([⟨2⟩, ⟨2⟩, ⟨2⟩] : List FrequencySample), d.frequency = e.frequency) ∧
    (frequencyHistogram [⟨2⟩, ⟨2⟩, ⟨2⟩]).distribution.length = 10 ∧
    ∀ x ∈ (frequencyHistogram [⟨2⟩, ⟨2⟩, ⟨2⟩]).distribution,
      ∃ n : ℕ, x = JSNum.fin (n : ℚ) :=
  ⟨by decide, by decide,
    degenerate_bins_are_counts [⟨2⟩, ⟨2⟩, ⟨2⟩] (by decide) (by decide)⟩

/-- C10: for non-empty frequency data whose frequencies are all equal,
`updateFrequencyChart` computes `binSize = 0`; for every sample the quotient
`(f - min) / binSize` is `NaN`, so is its `binIndex`, which is no array index;
the ten bin counts all remain `0`, and their sum is `0`, not the number of
samples. -/
theorem degenerate_bins_stay_zero (frequencyData : List FrequencySample)
    (hne : frequencyData ≠ [])
    (hall : ∀ d ∈ frequencyData, ∀ e ∈ frequencyData, d.frequency = e.frequency) :
    (frequencyHistogram frequencyData).binSize = JSNum.fin 0 ∧
    (∀ d ∈ frequencyData,
      ((JSNum.fin d.frequency).sub (frequencyHistogram frequencyData).min).div
        (frequencyHistogram frequencyData).binSize = JSNum.nan ∧
      binIndex (frequencyHistogram frequencyData).min
        (frequencyHistogram frequencyData).binSize (JSNum.fin d.frequency) = JSNum.nan ∧
      arrayIndex? (binIndex (frequencyHistogram frequencyData).min
        (frequencyHistogram frequencyData).binSize (JSNum.fin d.frequency)) = none) ∧
    (frequencyHistogram frequencyData).distribution = List.replicate 10 (JSNum.fin 0) ∧
    jsSum (frequencyHistogram frequencyData).distribution = JSNum.fin 0 ∧
    jsSum (frequencyHistogram frequencyData).distribution
      ≠ JSNum.fin (frequencyData.length : ℚ) := by
  obtain ⟨v, hv, hmin, _, hbs, hdiv, hidx, hdist⟩ :=
    histogram_of_all_equal frequencyData hne hall
  rw [hbs, hmin, hdist]
  have hsum : jsSum (List.replicate 10 (JSNum.fin 0)) = JSNum.fin 0 := by
    simp [jsSum, List.replicate, JSNum.add, round64_zero]
  refine ⟨rfl, ?_, rfl, hsum, ?_⟩
  · intro d hd
    rw [hv d hd, hdiv, hidx]
    exact ⟨rfl, rfl, rfl⟩
  · rw [hsum]
    intro h
    have h' : (0 : ℚ) = (frequencyData.length : ℚ) := by simpa using h
    have : frequencyData.length = 0 := by exact_mod_cast h'.symm
    exact hne (List.length_eq_zero.mp this)

theorem degenerate_bins_stay_zero_witness :
    ([⟨2⟩, ⟨2⟩, ⟨2⟩] : List FrequencySample) ≠ [] ∧
    (∀ d ∈ ([⟨2⟩, ⟨2⟩, ⟨2⟩] : List FrequencySample),
      ∀ e ∈ ([⟨2⟩, ⟨2⟩, ⟨2⟩] : List FrequencySample), d.frequency = e.frequency) ∧
    (frequencyHistogram [⟨2⟩, ⟨2⟩, ⟨2⟩]).distribution = List.replicate 10 (JSNum.fin 0) :=
  ⟨by decide, by decide,
    (degenerate_bins_stay_zero [⟨2⟩, ⟨2⟩, ⟨2⟩] (by decide) (by decide)).2.2.1⟩

/-! ### Decimal digits and `toFixed` -/

theorem toDigitsCore_append (fuel n : ℕ) (ds : List Char) :
    Nat.toDigitsCore 10 fuel n ds = Nat.toDigitsCore 10 fuel n [] ++ ds := by
  induction fuel generalizing n ds with
  | zero => simp [Nat.toDigitsCore]
  | succ f ih =>
    simp only [Nat.toDigitsCore]
    by_cases h : n / 10 = 0
    · simp [h]
    · simp only [h, if_false]
      rw [ih (n / 10) (Nat.digitChar (n % 10) :: ds), ih (n / 10) [Nat.digitChar (n % 10)]]
      simp

theorem toDigitsCore_fuel (n : ℕ) : ∀ fuel : ℕ, n < fuel → ∀ ds : List Char,
    Nat.toDigitsCore 10 fuel n ds = Nat.toDigitsCore 10 (n + 1) n ds := by
  induction n using Nat.strong_induction_on with
  | _ n ih =>
    intro fuel hf ds
    obtain ⟨f, rfl⟩ : ∃ f, fuel = f + 1 := ⟨fuel - 1, by omega⟩
    simp only [Nat.toDigitsCore]
    by_cases h : n / 10 = 0
    · simp [h]
    · simp only [h, if_false]
      have hlt : n / 10 < n := by omega
      rw [ih (n / 10) hlt f (by omega), ih (n / 10) hlt n hlt]

theorem toDigits_of_lt_ten (n : ℕ) (h : n < 10) :
    Nat.toDigits 10 n = [Nat.digitChar n] := by
  have h1 : n / 10 = 0 := by omega
  have h2 : n % 10 = n := by omega
  simp [Nat.toDigits, Nat.toDigitsCore, h1, h2]

theorem toDigits_of_ten_le (n : ℕ) (h : 10 ≤ n) :
    Nat.toDigits 10 n = Nat.toDigits 10 (n / 10) ++ [Nat.digitChar (n % 10)] := by
  have h1 : n / 10 ≠ 0 := by omega
  have hlt : n / 10 < n := by omega
  unfold Nat.toDigits
  rw [Nat.toDigitsCore]
  simp only [h1, if_false]
  rw [toDigitsCore_fuel (n / 10) n hlt, toDigitsCore_append]

/-- The steps of `toFixed` with two fraction digits write the integer part of
`n / 100`, a point and the last two digits of `n`. -/
theorem toFixedDigits_two (n : ℕ) :
    toFixedDigits n 2
      = Nat.toDigits 10 (n / 100)
          ++ ['.', Nat.digitChar (n / 10 % 10), Nat.digitChar (n % 10)] := by
  unfold toFixedDigits
  have hm : (if n = 0 then ['0'] else Nat.toDigits 10 n) = Nat.toDigits 10 n := by
    by_cases h : n = 0
    · subst h; rfl
    · simp [h]
  simp only [hm, ne_eq, OfNat.ofNat_ne_zero, not_false_eq_true, if_true]
  by_cases h1 : n < 10
  · have e1 : n / 100 = 0 := by omega
    have e2 : n / 10 % 10 = 0 := by omega
    have e3 : n % 10 = n := by omega
    rw [toDigits_of_lt_ten n h1, e1, e2, e3]
    rfl
  · by_cases h2 : n < 100
    · have e1 : n / 100 = 0 := by omega
      rw [toDigits_of_ten_le n (by omega), toDigits_of_lt_ten (n / 10) (by omega), e1]
      have e2 : n / 10 % 10 = n / 10 := by omega
      rw [e2]
      rfl
    · have e1 : n / 10 / 10 = n / 100 := by omega
      rw [toDigits_of_ten_le n (by omega), toDigits_of_ten_le (n / 10) (by omega), e1]
      have hpos : 0 < (Nat.toDigits 10 (n / 100)).length := by
        by_cases h3 : n / 100 < 10
        · rw [toDigits_of_lt_ten _ h3]; simp
        · rw [toDigits_of_ten_le _ (by omega)]; simp
      generalize Nat.toDigits 10 (n / 100) = ds at hpos
      have hk : ¬ (ds ++ [Nat.digitChar (n / 10 % 10)] ++ [Nat.digitChar (n % 10)]).length ≤ 2 := by
        simp only [List.length_append, List.length_singleton]
        omega
      simp only [hk, if_false]
      have hlen : (ds ++ [Nat.digitChar (n / 10 % 10)] ++ [Nat.digitChar (n % 10)]).length - 2
          = ds.length := by simp
      rw [hlen, List.append_assoc, List.take_left', List.drop_left']
      · simp
      · rfl
      · rfl


theorem toFixed_two_eq_twoDecimals (shortest : ℚ → String) (q : ℚ)
    (hq : |q| < 10 ^ 21) : toFixed shortest (JSNum.fin q) 2 = twoDecimals q := by
  unfold toFixed twoDecimals
  simp only [not_le.mpr hq, if_false]
  congr 1
  have h100 : (10 : ℚ) ^ 2 = 100 := by norm_num
  rw [h100, toFixedDigits_two]
  apply String.ext
  simp [toString, Nat.repr, List.asString]

/-- At `10^21` the method `toFixed` prints the exponent form, whatever the
unmodelled part of `Number::toString` is. -/
theorem toFixed_1e21 (shortest : ℚ → String) :
    toFixed shortest (JSNum.fin ((10 : ℚ) ^ 21)) 2 = "1e+21" := by
  have hcast : (10 : ℚ) ^ 21 = ((10 ^ 21 : ℕ) : ℚ) := by norm_num
  have habs : |(10 : ℚ) ^ 21| = ((10 ^ 21 : ℕ) : ℚ) := by
    rw [abs_of_nonneg (by positivity), hcast]
  have hnot : ¬ ((10 : ℚ) ^ 21 < 0) := by
    have : (0 : ℚ) < 10 ^ 21 := by positivity
    linarith
  unfold toFixed
  simp only [habs, hnot, if_false]
  rw [if_pos (by norm_num)]
  unfold positiveToString
  rw [Rat.den_natCast, Rat.num_natCast, Int.toNat_natCast]
  have ht : trailingZeros (10 ^ 21) (10 ^ 21) = 21 := by decide!
  have h53 : ¬ ((10 : ℕ) ^ 21 ≤ 2 ^ 53) := by norm_num
  simp only [ht, h53, if_false, if_true]
  rw [if_pos (by norm_num)]
  decide!

theorem abs_lt_1e21_of_small (q : ℚ) (h1 : -1000 < q) (h2 : q < 1000) :
    |q| < 10 ^ 21 := by
  rw [abs_lt]
  constructor <;> norm_num <;> linarith

theorem tooltipLabel_ganttDatum (shortest : ℚ → String) (d : TimeSliceRecord) :
    tooltipLabel shortest (ganttDatum d) =
      some ["Time: " ++ toFixed shortest (JSNum.fin d.start) 2 ++ " - "
              ++ toFixed shortest ((JSNum.fin d.start).add (JSNum.fin d.duration)) 2 ++ " ms",
            "Frequency: " ++ toFixed shortest (JSNum.fin d.frequency) 2 ++ " GHz"] := by
  rfl

/-! ## The Gantt claims -/

/-- C7 (as amended): for a record whose start, frequency and binary64 sum
`e = start + duration` (the end time the callback computes) are all below
`10^21` in magnitude, the tooltip callback on its bar datum returns the two
lines `Time: S - E ms` and `Frequency: F GHz`, with `S`, `E` and `F` the start,
the binary64 sum and the frequency rendered with exactly two decimal places. -/
theorem tooltip_two_decimals (shortest : ℚ → String) (d : TimeSliceRecord) (e : ℚ)
    (hsum : (JSNum.fin d.start).add (JSNum.fin d.duration) = JSNum.fin e)
    (hs : |d.start| < 10 ^ 21) (he : |e| < 10 ^ 21) (hf : |d.frequency| < 10 ^ 21) :
    tooltipLabel shortest (ganttDatum d) =
      some ["Time: " ++ twoDecimals d.start ++ " - " ++ twoDecimals e ++ " ms",
            "Frequency: " ++ twoDecimals d.frequency ++ " GHz"] := by
  rw [tooltipLabel_ganttDatum, hsum, toFixed_two_eq_twoDecimals shortest _ hs,
    toFixed_two_eq_twoDecimals shortest _ he, toFixed_two_eq_twoDecimals shortest _ hf]

theorem tooltip_two_decimals_witness :
    isBinary64 (5404319552844595 / 4503599627370496) = true ∧
    isBinary64 (5404319552844595 / 2251799813685248) = true ∧
    tooltipLabel (fun _ => "") (ganttDatum ⟨1, 0, 5, 5404319552844595 / 4503599627370496⟩) =
      some ["Time: 0.00 - 5.00 ms", "Frequency: 1.20 GHz"] ∧
    tooltipLabel (fun _ => "") (ganttDatum ⟨2, 5, 3, 5404319552844595 / 2251799813685248⟩) =
      some ["Time: 5.00 - 8.00 ms", "Frequency: 2.40 GHz"] := by
  refine ⟨by decide!, by decide!, ?_, ?_⟩
  · rw [tooltip_two_decimals (fun _ => "") ⟨1, 0, 5, 5404319552844595 / 4503599627370496⟩ 5
      (by decide!)
      (abs_lt_1e21_of_small _ (by norm_num) (by norm_num))
      (abs_lt_1e21_of_small _ (by norm_num) (by norm_num))
      (abs_lt_1e21_of_small _ (by norm_num) (by norm_num))]
    decide!
  · rw [tooltip_two_decimals (fun _ => "") ⟨2, 5, 3, 5404319552844595 / 2251799813685248⟩ 8
      (by decide!)
      (abs_lt_1e21_of_small _ (by norm_num) (by norm_num))
      (abs_lt_1e21_of_small _ (by norm_num) (by norm_num))
      (abs_lt_1e21_of_small _ (by norm_num) (by norm_num))]
    decide!

/-- C7 fails as stated: for the record `{pid: 1, start: 0, duration: 5,
frequency: 1e21}` the second tooltip line is `Frequency: 1e+21 GHz`, not the
frequency with two decimal places, whatever the unmodelled part of
`Number::toString` prints. -/
theorem tooltip_two_decimals_fails_at_1e21 :
    ¬ ∃ shortest : ℚ → String,
      tooltipLabel shortest (ganttDatum ⟨1, 0, 5, 10 ^ 21⟩) =
        some ["Time: " ++ twoDecimals 0 ++ " - " ++ twoDecimals 5 ++ " ms",
              "Frequency: " ++ twoDecimals (10 ^ 21) ++ " GHz"] := by
  rintro ⟨shortest, h⟩
  have h1 : tooltipLabel shortest (ganttDatum ⟨1, 0, 5, 10 ^ 21⟩)
      = some ["Time: 0.00 - 5.00 ms", "Frequency: 1e+21 GHz"] := by
    rw [tooltipLabel_ganttDatum]
    have a0 : (JSNum.fin (0 : ℚ)).add (JSNum.fin 5) = JSNum.fin 5 := by decide!
    have a1 : toFixed shortest (JSNum.fin (0 : ℚ)) 2 = "0.00" := by
      rw [toFixed_two_eq_twoDecimals shortest _ (by norm_num)]; decide!
    have a2 : toFixed shortest (JSNum.fin (5 : ℚ)) 2 = "5.00" := by
      rw [toFixed_two_eq_twoDecimals shortest _ (abs_lt_1e21_of_small _ (by norm_num)
        (by norm_num))]
      decide!
    have a3 := toFixed_1e21 shortest
    simp only [a0, a1, a2, a3]
    decide
  rw [h1] at h
  revert h
  decide!

/-- A natural number up to `2^53` prints as its decimal digits. -/
theorem numberToString_natCast (shortest : ℚ → String) (n : ℕ) (hn : n ≤ 2 ^ 53) :
    numberToString shortest (JSNum.fin (n : ℚ)) = toString n := by
  have h0 : ¬ ((n : ℚ) < 0) := by
    have : (0 : ℚ) ≤ n := Nat.cast_nonneg n
    linarith
  have habs : |(n : ℚ)| = (n : ℚ) := abs_of_nonneg (Nat.cast_nonneg n)
  simp only [numberToString, positiveToString, habs, Rat.den_natCast, Rat.num_natCast,
    Int.toNat_natCast, h0, if_false, if_true, hn]
  apply String.ext
  simp

/-- The page after `updateGanttChart` on non-empty data: one chart object more
than before, mounted on the Gantt canvas with the configuration built from the
data, and held by `window.ganttChart`. -/
theorem updateGanttChart_of_ne_nil (shortest : ℚ → String)
    (ganttData : List TimeSliceRecord) (hne : ganttData ≠ []) (w : Window) :
    (updateGanttChart shortest ganttData w).ganttChart = some w.charts.length ∧
    (updateGanttChart shortest ganttData w).charts[w.charts.length]? =
      some { canvas := CanvasId.ganttChart, config := ganttConfig shortest ganttData,
             destroyed := false } := by
  have hlen : ganttData.length ≠ 0 := by
    intro h; exact hne (List.length_eq_zero.mp h)
  have hc : (w.destroyIfChart w.ganttChart).charts.length = w.charts.length := by
    unfold Window.destroyIfChart
    cases w.ganttChart <;> simp [Window.destroy]
  unfold updateGanttChart
  simp only [hlen, if_false, Window.newChart, hc]
  refine ⟨trivial, ?_⟩
  rw [← hc]
  simp

theorem ganttHue_eq (i n : ℕ) (hi : i * 360 < 2 ^ 53) (hn : n ≠ 0) :
    ganttHue i n = round64 ((i : ℚ) * 360 / n) := by
  have hn' : (n : ℚ) ≠ 0 := by exact_mod_cast hn
  have hmul : (JSNum.fin (i : ℚ)).mul (JSNum.fin 360) = JSNum.fin ((i : ℚ) * 360) := by
    have := round64_natCast (i * 360) hi
    simp only [JSNum.mul]
    rw [← Nat.cast_ofNat (n := 360), ← Nat.cast_mul]
    exact this
  unfold ganttHue
  rw [hmul]
  simp [JSNum.div, hn']

/-- C3: on non-empty Gantt data of length `N`, `updateGanttChart` makes one
chart whose configuration has `N` labels, `N` data points and `N` background
colours, in input order; the colour of bar `i` is the text `hsl(H, 70%, 60%)`
with hue `H` the value of `(i * 360) / N`, which for an array (fewer than
`2^32` elements) is the binary64 number nearest to `i * 360 / N`, and for
`N = 2` the two colours have hues `0` and `180`. -/
theorem gantt_bars_and_hues (shortest : ℚ → String) (ganttData : List TimeSliceRecord)
    (hne : ganttData ≠ []) (w : Window) :
    ∃ labels data colours,
      (updateGanttChart shortest ganttData w).ganttChart = some w.charts.length ∧
      (updateGanttChart shortest ganttData w).charts[w.charts.length]? =
        some { canvas := CanvasId.ganttChart,
               config := ChartConfig.gantt labels data colours, destroyed := false } ∧
      labels.length = ganttData.length ∧
      data.length = ganttData.length ∧
      colours.length = ganttData.length ∧
      (∀ i, i < ganttData.length →
        labels[i]? = ganttData[i]?.map (ganttLabel shortest) ∧
        data[i]? = ganttData[i]?.map ganttDatum ∧
        (ganttData.length < 2 ^ 32 →
          ganttHue i ganttData.length = round64 ((i : ℚ) * 360 / ganttData.length)) ∧
        colours[i]? = some ("hsl(" ++
          numberToString shortest (ganttHue i ganttData.length) ++ ", 70%, 60%)")) ∧
      (ganttData.length = 2 → colours = ["hsl(0, 70%, 60%)", "hsl(180, 70%, 60%)"]) := by
  have hlen : ganttData.length ≠ 0 := by
    intro h; exact hne (List.length_eq_zero.mp h)
  obtain ⟨h1, h2⟩ := updateGanttChart_of_ne_nil shortest ganttData hne w
  refine ⟨ganttData.map (ganttLabel shortest), ganttData.map ganttDatum,
    ganttData.mapIdx (fun i _ => ganttColor shortest i ganttData.length),
    h1, h2, by simp, by simp, by simp, ?_, ?_⟩
  · intro i hi
    refine ⟨by simp, by simp, ?_, ?_⟩
    · intro hN
      apply ganttHue_eq i _ _ hlen
      have : (2 : ℕ) ^ 32 * 360 < 2 ^ 53 := by norm_num
      have : i * 360 < 2 ^ 32 * 360 := by omega
      omega
    · rw [List.getElem?_mapIdx, List.getElem?_eq_getElem hi]
      simp [ganttColor]
  · intro h2
    match ganttData, h2 with
    | [a, b], _ =>
      have e0 : ganttColor shortest 0 2 = "hsl(0, 70%, 60%)" := by
        have h : ganttHue 0 2 = JSNum.fin ((0 : ℕ) : ℚ) := by decide!
        rw [ganttColor, h, numberToString_natCast shortest 0 (by norm_num)]
        decide
      have e1 : ganttColor shortest 1 2 = "hsl(180, 70%, 60%)" := by
        have h : ganttHue 1 2 = JSNum.fin ((180 : ℕ) : ℚ) := by decide!
        rw [ganttColor, h, numberToString_natCast shortest 180 (by norm_num)]
        decide
      simp [List.mapIdx_cons, e0, e1]

theorem gantt_bars_and_hues_witness :
    ([⟨1, 0, 5, 6 / 5⟩, ⟨2, 5, 3, 12 / 5⟩] : List TimeSliceRecord) ≠ [] ∧
    ∃ labels data colours,
      (updateGanttChart (fun _ => "") [⟨1, 0, 5, 6 / 5⟩, ⟨2, 5, 3, 12 / 5⟩]
        Window.initial).charts[0]? =
        some { canvas := CanvasId.ganttChart,
               config := ChartConfig.gantt labels data colours, destroyed := false } ∧
      labels.length = 2 ∧ data.length = 2 ∧ colours.length = 2 ∧
      colours = ["hsl(0, 70%, 60%)", "hsl(180, 70%, 60%)"] := by
  refine ⟨by decide, ?_⟩
  obtain ⟨labels, data, colours, _, h2, h3, h4, h5, _, h7⟩ :=
    gantt_bars_and_hues (fun _ => "") [⟨1, 0, 5, 6 / 5⟩, ⟨2, 5, 3, 12 / 5⟩] (by decide)
      Window.initial
  exact ⟨labels, data, colours, h2, h3, h4, h5, h7 rfl⟩

/-- C8 (as amended): the bar datum `updateGanttChart` builds for record `i` has
`x` equal to the record's start, `y` equal to the record's frequency and
`duration` equal to the record's duration, all numbers; the process label
`"P" + pid` of the record is entry `i` of the chart's labels. -/
theorem gantt_datum_fields (shortest : ℚ → String) (ganttData : List TimeSliceRecord)
    (w : Window) (i : ℕ) (d : TimeSliceRecord) (hd : ganttData[i]? = some d) :
    ∃ labels data colours,
      (updateGanttChart shortest ganttData w).charts[w.charts.length]? =
        some { canvas := CanvasId.ganttChart,
               config := ChartConfig.gantt labels data colours, destroyed := false } ∧
      data[i]? = some { x := JSVal.num (JSNum.fin d.start),
                        y := JSVal.num (JSNum.fin d.frequency),
                        duration := JSVal.num (JSNum.fin d.duration) } ∧
      labels[i]? = some ("P" ++ numberToString shortest (JSNum.fin d.pid)) := by
  have hne : ganttData ≠ [] := by
    intro h; rw [h] at hd; simp at hd
  obtain ⟨_, h2⟩ := updateGanttChart_of_ne_nil shortest ganttData hne w
  refine ⟨ganttData.map (ganttLabel shortest), ganttData.map ganttDatum,
    ganttData.mapIdx (fun i _ => ganttColor shortest i ganttData.length), h2, ?_, ?_⟩
  · simp [hd, ganttDatum]
  · simp [hd, ganttLabel]

theorem gantt_datum_fields_witness :
    ∃ labels data colours,
      (updateGanttChart (fun _ => "") [⟨1, 0, 5, 6 / 5⟩, ⟨2, 5, 3, 12 / 5⟩]
        Window.initial).charts[0]? =
        some { canvas := CanvasId.ganttChart,
               config := ChartConfig.gantt labels data colours, destroyed := false } ∧
      data[1]? = some { x := JSVal.num (JSNum.fin 5),
                        y := JSVal.num (JSNum.fin (12 / 5)),
                        duration := JSVal.num (JSNum.fin 3) } ∧
      labels[1]? = some ("P" ++ numberToString (fun _ => "") (JSNum.fin ((2 : ℤ) : ℚ))) :=
  gantt_datum_fields (fun _ => "") [⟨1, 0, 5, 6 / 5⟩, ⟨2, 5, 3, 12 / 5⟩]
    Window.initial 1 ⟨2, 5, 3, 12 / 5⟩ rfl

/-- C8 fails as stated: for the record `{pid: 1, start: 0, duration: 5,
frequency: 1.2}` the field `y` of the bar datum is the number `1.2`, not the
label `P1`. -/
theorem gantt_datum_y_is_not_label :
    ¬ ∃ shortest : ℚ → String,
      (ganttDatum ⟨1, 0, 5, 6 / 5⟩).y = JSVal.str (ganttLabel shortest ⟨1, 0, 5, 6 / 5⟩) := by
  rintro ⟨shortest, h⟩
  simp [ganttDatum] at h

/-! ## The page -/

theorem destroyIfChart_length (w : Window) (h : Option ℕ) :
    (w.destroyIfChart h).charts.length = w.charts.length := by
  cases h <;> simp [Window.destroyIfChart, Window.destroy]

theorem destroyIfChart_getElem? (w : Window) (h : Option ℕ) (i : ℕ) :
    (w.destroyIfChart h).charts[i]? =
      (w.charts[i]?).map (fun c => if h = some i then { c with destroyed := true } else c) := by
  cases h with
  | none => simp [Window.destroyIfChart]
  | some j =>
    simp only [Window.destroyIfChart, Window.destroy, List.getElem?_modify, Option.some.injEq]
    rfl

theorem destroyIfChart_handle (w : Window) (h : Option ℕ) (c : CanvasId) :
    (w.destroyIfChart h).handle c = w.handle c := by
  cases h <;> cases c <;> rfl

theorem destroyIfChart_isOn (w : Window) (h : Option ℕ) (c : CanvasId) (i : ℕ) :
    (w.destroyIfChart h).isOn c i = w.isOn c i := by
  unfold Window.isOn
  rw [destroyIfChart_getElem?]
  cases w.charts[i]? with
  | none => rfl
  | some ch => by_cases hh : h = some i <;> simp [hh]

theorem destroyIfChart_isLiveOn (w : Window) (h : Option ℕ) (c : CanvasId) (i : ℕ) :
    (w.destroyIfChart h).isLiveOn c i = (w.isLiveOn c i && !decide (h = some i)) := by
  unfold Window.isLiveOn
  rw [destroyIfChart_getElem?]
  cases w.charts[i]? with
  | none => rfl
  | some ch => by_cases hh : h = some i <;> simp [hh]

theorem lastCreatedOn_eq (w : Window) (c : CanvasId) :
    w.lastCreatedOn c = ((List.range w.charts.length).filter (w.isOn c)).getLast? := rfl

theorem destroyIfChart_lastCreatedOn (w : Window) (h : Option ℕ) (c : CanvasId) :
    (w.destroyIfChart h).lastCreatedOn c = w.lastCreatedOn c := by
  rw [lastCreatedOn_eq, lastCreatedOn_eq, destroyIfChart_length]
  congr 1
  apply List.filter_congr
  intro i _
  exact destroyIfChart_isOn w h c i

theorem setHandle_charts (w : Window) (c : CanvasId) (h : Option ℕ) :
    (w.setHandle c h).charts = w.charts := by
  cases c <;> rfl

theorem setHandle_handle (w : Window) (c c' : CanvasId) (h : Option ℕ) :
    (w.setHandle c h).handle c' = if c' = c then h else w.handle c' := by
  cases c <;> cases c' <;> simp [Window.setHandle, Window.handle]

theorem updateGanttChart_eq_render (shortest : ℚ → String) (d : List TimeSliceRecord)
    (w : Window) :
    updateGanttChart shortest d w = w.render CanvasId.ganttChart
      (if d.length = 0 then none else some (ganttConfig shortest d)) := by
  unfold updateGanttChart Window.render
  by_cases h : d.length = 0
  · simp [h, Window.handle]
  · simp [h, Window.handle, Window.newChart, Window.setHandle, destroyIfChart_length]

theorem updateFrequencyChart_eq_render (shortest : ℚ → String) (d : List FrequencySample)
    (w : Window) :
    updateFrequencyChart shortest d w = w.render CanvasId.frequencyDistChart
      (if d.length = 0 then none else some (frequencyConfig shortest d)) := by
  unfold updateFrequencyChart Window.render
  by_cases h : d.length = 0
  · simp [h, Window.handle]
  · simp [h, Window.handle, Window.newChart, Window.setHandle, destroyIfChart_length]

theorem updateEnergyChart_eq_render (shortest : ℚ → String) (d : List EnergySample)
    (w : Window) :
    updateEnergyChart shortest d w = w.render CanvasId.energyChart
      (if d.length = 0 then none else some (energyConfig shortest d)) := by
  unfold updateEnergyChart Window.render
  by_cases h : d.length = 0
  · simp [h, Window.handle]
  · simp [h, Window.handle, Window.newChart, Window.setHandle, destroyIfChart_length]


/-- After the release at the head of a render operation no live chart is left
on the canvas of the panel. -/
theorem inv_release_no_live (w : Window) (hw : w.Inv) (c : CanvasId) (i : ℕ) :
    (w.destroyIfChart (w.handle c)).isLiveOn c i = false := by
  rw [destroyIfChart_isLiveOn]
  cases hl : w.isLiveOn c i with
  | false => rfl
  | true => simp [hw.1 c i hl]

theorem inv_release (w : Window) (hw : w.Inv) (c : CanvasId) :
    (w.destroyIfChart (w.handle c)).Inv := by
  refine ⟨?_, ?_⟩
  · intro c' i hl
    rw [destroyIfChart_isLiveOn] at hl
    rw [destroyIfChart_handle]
    have : w.isLiveOn c' i = true := by
      cases h : w.isLiveOn c' i with
      | false => rw [h] at hl; simp at hl
      | true => rfl
    exact hw.1 c' i this
  · intro c'
    rw [destroyIfChart_handle, destroyIfChart_lastCreatedOn]
    exact hw.2 c'

theorem newChart_getElem? (w : Window) (c : CanvasId) (cfg : ChartConfig) (i : ℕ) :
    (w.newChart c cfg).1.charts[i]? =
      if i < w.charts.length then w.charts[i]?
      else if i = w.charts.length then
        some { canvas := c, config := cfg, destroyed := false }
      else none := by
  simp only [Window.newChart]
  by_cases h1 : i < w.charts.length
  · simp [h1, List.getElem?_append_left h1]
  · simp only [h1, if_false]
    by_cases h2 : i = w.charts.length
    · subst h2
      simp
    · simp only [h2, if_false]
      apply List.getElem?_eq_none
      simp
      omega

theorem newChart_isOn (w : Window) (c c' : CanvasId) (cfg : ChartConfig) (i : ℕ) :
    (w.newChart c cfg).1.isOn c' i =
      if i < w.charts.length then w.isOn c' i
      else decide (i = w.charts.length) && decide (c = c') := by
  unfold Window.isOn
  rw [newChart_getElem?]
  by_cases h1 : i < w.charts.length
  · simp [h1]
  · by_cases h2 : i = w.charts.length
    · simp [h2]
    · simp [h1, h2]

theorem newChart_isLiveOn (w : Window) (c c' : CanvasId) (cfg : ChartConfig) (i : ℕ) :
    (w.newChart c cfg).1.isLiveOn c' i =
      if i < w.charts.length then w.isLiveOn c' i
      else decide (i = w.charts.length) && decide (c = c') := by
  unfold Window.isLiveOn
  rw [newChart_getElem?]
  by_cases h1 : i < w.charts.length
  · simp [h1]
  · by_cases h2 : i = w.charts.length
    · simp [h2]
    · simp [h1, h2]

theorem newChart_lastCreatedOn (w : Window) (c c' : CanvasId) (cfg : ChartConfig) :
    (w.newChart c cfg).1.lastCreatedOn c' =
      if c = c' then some w.charts.length else w.lastCreatedOn c' := by
  rw [lastCreatedOn_eq, lastCreatedOn_eq]
  have hlen : (w.newChart c cfg).1.charts.length = w.charts.length + 1 := by
    simp [Window.newChart]
  rw [hlen, List.range_succ, List.filter_append]
  have h1 : (List.range w.charts.length).filter ((w.newChart c cfg).1.isOn c')
      = (List.range w.charts.length).filter (w.isOn c') := by
    apply List.filter_congr
    intro i hi
    rw [newChart_isOn, if_pos (List.mem_range.mp hi)]
  have h2 : (w.newChart c cfg).1.isOn c' w.charts.length = decide (c = c') := by
    rw [newChart_isOn]
    simp
  rw [h1, List.filter_cons, h2, List.filter_nil]
  by_cases hc : c = c'
  · simp only [hc, decide_True, if_true]
    exact List.getLast?_concat _
  · simp [hc]

theorem newChart_handle (w : Window) (c c' : CanvasId) (cfg : ChartConfig) :
    (w.newChart c cfg).1.handle c' = w.handle c' := by
  cases c' <;> rfl

theorem setHandle_isOn (w : Window) (c c' : CanvasId) (h : Option ℕ) (i : ℕ) :
    (w.setHandle c h).isOn c' i = w.isOn c' i := by
  unfold Window.isOn
  rw [setHandle_charts]

theorem setHandle_lastCreatedOn (w : Window) (c c' : CanvasId) (h : Option ℕ) :
    (w.setHandle c h).lastCreatedOn c' = w.lastCreatedOn c' := by
  rw [lastCreatedOn_eq, lastCreatedOn_eq, setHandle_charts]
  congr 1
  apply List.filter_congr
  intro i _
  exact setHandle_isOn w c c' h i

theorem isLiveOn_lt_length (w : Window) (c : CanvasId) (i : ℕ)
    (h : w.isLiveOn c i = true) : i < w.charts.length := by
  unfold Window.isLiveOn at h
  by_contra hlt
  rw [List.getElem?_eq_none (by omega)] at h
  simp at h

theorem inv_render (w : Window) (hw : w.Inv) (c : CanvasId) (config : Option ChartConfig) :
    (w.render c config).Inv := by
  cases config with
  | none => exact inv_release w hw c
  | some cfg =>
    have hr := inv_release w hw c
    have hlen := destroyIfChart_length w (w.handle c)
    simp only [Window.render]
    refine ⟨?_, ?_⟩
    · intro c' i hl
      rw [setHandle_handle]
      unfold Window.isLiveOn at hl
      rw [setHandle_charts] at hl
      have hl' : ((w.destroyIfChart (w.handle c)).newChart c cfg).1.isLiveOn c' i = true := hl
      rw [newChart_isLiveOn, hlen] at hl'
      by_cases hi : i < w.charts.length
      · rw [if_pos hi] at hl'
        by_cases hc : c' = c
        · subst hc
          rw [inv_release_no_live w hw c' i] at hl'
          simp at hl'
        · rw [if_neg hc, newChart_handle]
          exact hr.1 c' i hl'
      · rw [if_neg hi] at hl'
        simp only [Bool.and_eq_true, decide_eq_true_eq] at hl'
        rw [if_pos hl'.2.symm, hl'.1]
    · intro c'
      rw [setHandle_handle]
      rw [setHandle_lastCreatedOn, newChart_lastCreatedOn, hlen,
        destroyIfChart_lastCreatedOn]
      by_cases hc : c' = c
      · subst hc
        simp
      · have hc' : ¬ c = c' := fun h => hc h.symm
        rw [if_neg hc, if_neg hc', newChart_handle, destroyIfChart_handle]
        exact hw.2 c'

theorem inv_initial : Window.initial.Inv := by
  refine ⟨?_, ?_⟩
  · intro c i h
    simp [Window.isLiveOn, Window.initial] at h
  · intro c
    cases c <;> rfl

theorem inv_apply (shortest : ℚ → String) (w : Window) (hw : w.Inv) (call : Call) :
    (call.apply shortest w).Inv := by
  cases call with
  | gantt d => 
    simp only [Call.apply, updateGanttChart_eq_render]
    exact inv_render w hw _ _
  | frequency d =>
    simp only [Call.apply, updateFrequencyChart_eq_render]
    exact inv_render w hw _ _
  | energy d =>
    simp only [Call.apply, updateEnergyChart_eq_render]
    exact inv_render w hw _ _

theorem inv_foldl (shortest : ℚ → String) (calls : List Call) (w : Window) (hw : w.Inv) :
    (calls.foldl (Call.apply shortest) w).Inv := by
  induction calls generalizing w with
  | nil => exact hw
  | cons a l ih => exact ih _ (inv_apply shortest w hw a)

theorem inv_runCalls (shortest : ℚ → String) (calls : List Call) :
    (runCalls shortest calls).Inv :=
  inv_foldl shortest calls _ inv_initial


theorem liveOn_eq_nil_of_forall (w : Window) (c : CanvasId)
    (h : ∀ i, w.isLiveOn c i = false) : w.liveOn c = [] := by
  unfold Window.liveOn
  rw [List.filter_eq_nil_iff]
  intro i _
  simp [h i]

theorem handle_lt_length (w : Window) (hw : w.Inv) (c : CanvasId) (i : ℕ)
    (h : w.handle c = some i) : i < w.charts.length := by
  rw [hw.2 c, lastCreatedOn_eq] at h
  have := List.mem_of_getLast?_eq_some h
  exact List.mem_range.mp (List.mem_filter.mp this).1

theorem clearedFrom_release (w : Window) (hw : w.Inv) (c : CanvasId) :
    Window.ClearedFrom w (w.destroyIfChart (w.handle c)) c := by
  refine ⟨destroyIfChart_length _ _, ?_, ?_⟩
  · exact liveOn_eq_nil_of_forall _ _ (inv_release_no_live w hw c)
  · intro i hi
    have hlt := handle_lt_length w hw c i hi
    rw [destroyIfChart_getElem?, List.getElem?_eq_getElem hlt, hi]
    exact ⟨{ w.charts[i] with destroyed := true }, by simp, rfl⟩

/-- C4: on any page that satisfies the invariant of the render operations
(every page they reach does), each of the three render operations called with
an empty sequence makes no chart object, destroys the chart its handle held,
and leaves no live chart on its canvas. -/
theorem empty_data_clears_panel (shortest : ℚ → String) (w : Window) (hw : w.Inv) :
    Window.ClearedFrom w (updateGanttChart shortest [] w) CanvasId.ganttChart ∧
    Window.ClearedFrom w (updateFrequencyChart shortest [] w) CanvasId.frequencyDistChart ∧
    Window.ClearedFrom w (updateEnergyChart shortest [] w) CanvasId.energyChart := by
  refine ⟨?_, ?_, ?_⟩
  · rw [updateGanttChart_eq_render]
    exact clearedFrom_release _ hw _
  · rw [updateFrequencyChart_eq_render]
    exact clearedFrom_release _ hw _
  · rw [updateEnergyChart_eq_render]
    exact clearedFrom_release _ hw _

theorem empty_data_clears_panel_witness :
    (runCalls (fun _ => "") [Call.gantt [⟨1, 0, 5, 1⟩], Call.frequency [⟨1⟩, ⟨2⟩],
      Call.energy [⟨0, 1⟩]]).liveOn CanvasId.ganttChart = [0] ∧
    (runCalls (fun _ => "") [Call.gantt [⟨1, 0, 5, 1⟩], Call.frequency [⟨1⟩, ⟨2⟩],
      Call.energy [⟨0, 1⟩]]).liveOn CanvasId.frequencyDistChart = [1] ∧
    (runCalls (fun _ => "") [Call.gantt [⟨1, 0, 5, 1⟩], Call.frequency [⟨1⟩, ⟨2⟩],
      Call.energy [⟨0, 1⟩]]).liveOn CanvasId.energyChart = [2] ∧
    Window.ClearedFrom
      (runCalls (fun _ => "") [Call.gantt [⟨1, 0, 5, 1⟩], Call.frequency [⟨1⟩, ⟨2⟩],
        Call.energy [⟨0, 1⟩]])
      (updateGanttChart (fun _ => "") []
        (runCalls (fun _ => "") [Call.gantt [⟨1, 0, 5, 1⟩], Call.frequency [⟨1⟩, ⟨2⟩],
          Call.energy [⟨0, 1⟩]])) CanvasId.ganttChart ∧
    Window.ClearedFrom
      (runCalls (fun _ => "") [Call.gantt [⟨1, 0, 5, 1⟩], Call.frequency [⟨1⟩, ⟨2⟩],
        Call.energy [⟨0, 1⟩]])
      (updateFrequencyChart (fun _ => "") []
        (runCalls (fun _ => "") [Call.gantt [⟨1, 0, 5, 1⟩], Call.frequency [⟨1⟩, ⟨2⟩],
          Call.energy [⟨0, 1⟩]])) CanvasId.frequencyDistChart ∧
    Window.ClearedFrom
      (runCalls (fun _ => "") [Call.gantt [⟨1, 0, 5, 1⟩], Call.frequency [⟨1⟩, ⟨2⟩],
        Call.energy [⟨0, 1⟩]])
      (updateEnergyChart (fun _ => "") []
        (runCalls (fun _ => "") [Call.gantt [⟨1, 0, 5, 1⟩], Call.frequency [⟨1⟩, ⟨2⟩],
          Call.energy [⟨0, 1⟩]])) CanvasId.energyChart :=
  ⟨by decide!, by decide!, by decide!,
    empty_data_clears_panel (fun _ => "") _ (inv_runCalls (fun _ => "") _)⟩

theorem length_le_one_of_all_eq (l : List ℕ) (hnd : l.Nodup) (a : Option ℕ)
    (h : ∀ i ∈ l, a = some i) : l.length ≤ 1 := by
  match l, hnd, h with
  | [], _, _ => simp
  | [_], _, _ => simp
  | x :: y :: t, hnd, h =>
    have hx := h x (by simp)
    have hy := h y (by simp)
    have : x = y := by rw [hx] at hy; exact Option.some.inj hy
    subst this
    simp at hnd

/-- C5: after any sequence of render calls from the initial page, each canvas
carries at most one live chart, a live chart is the one in the handle of its
panel, the handle holds the chart made last on the canvas, and once the
operation has released the handle, which it does before it makes a chart, no
live chart is left on the canvas. -/
theorem at_most_one_live_chart (shortest : ℚ → String) (calls : List Call)
    (c : CanvasId) :
    ((runCalls shortest calls).liveOn c).length ≤ 1 ∧
    (∀ i ∈ (runCalls shortest calls).liveOn c,
      (runCalls shortest calls).handle c = some i) ∧
    (runCalls shortest calls).handle c = (runCalls shortest calls).lastCreatedOn c ∧
    ((runCalls shortest calls).destroyIfChart
      ((runCalls shortest calls).handle c)).liveOn c = [] := by
  have hw := inv_runCalls shortest calls
  have hall : ∀ i ∈ (runCalls shortest calls).liveOn c,
      (runCalls shortest calls).handle c = some i := by
    intro i hi
    exact hw.1 c i (List.mem_filter.mp hi).2
  refine ⟨?_, hall, hw.2 c, ?_⟩
  · apply length_le_one_of_all_eq _ _ _ hall
    exact (List.nodup_range _).filter _
  · exact liveOn_eq_nil_of_forall _ _ (inv_release_no_live _ hw c)

end Vir
